import Mathlib

/-!
# Hybrid lexical-semantic retrieval engine: a shallow embedding

This file embeds, over exact rationals, the numeric core of the retrieval
engine:

* `Qdrant DB/ingest_and_search_qdrant_ru.py`: `_tokenize_ru`, `_bm25_scores`,
  `_minmax_norm`, and the normalize/blend/sort/truncate tail of `search`;
* `chatbot/local_index.py`: the tf-idf `LocalIndex` (vocabulary, idf, sparse
  encoding, `search`) and `_cosine_similarity`;
* `rag.py`: `extract_payload_text` and `search_all_collections`.

Modelling conventions:

* Python `float` arithmetic is modelled by exact `ℚ` arithmetic.
* The two transcendental library calls, `math.log` and `math.sqrt`, are made
  explicit function parameters (`logQ`, `sqrtQ`); theorems hold for every
  instantiation.  The one claim that needs analytic facts about the real
  logarithm (positivity of the smoothed idf) is stated against a separate
  `ℝ`-valued definition of the same source line.
* Python `dict`s keyed by vocabulary indices are modelled as association
  lists; since a `dict`'s keys are distinct and the token -> index map of the
  local index is injective on the vocabulary, vectors are keyed directly by
  token where that map would have been applied.
* CPython's `list.sort`, `sorted` and `heapq.nlargest` are stable; a stable
  descending sort by key is the unique permutation ordered by the strict
  lexicographic order (key descending, original position ascending), realized
  here by merge sort over the position-tagged list (`pySortDesc`).
-/

/-! ## Stable descending sort by key (CPython list.sort / sorted / heapq.nlargest) -/

/-- Model of Python's stable descending sort by key
(`xs.sort(key=k, reverse=True)`, `sorted(xs, key=k, reverse=True)`):
merge sort of the position-tagged list under the lexicographic order
"key descending, then original position ascending", which is exactly the
output a stable descending sort produces. -/
def pySortDesc {α : Type} (key : α → ℚ) (l : List α) : List α :=
  ((l.enum).mergeSort
    (fun a b => decide (key b.2 < key a.2 ∨ (key a.2 = key b.2 ∧ a.1 ≤ b.1)))).map
    (fun p => p.2)

theorem pySortDesc_perm {α : Type} (key : α → ℚ) (l : List α) :
    (pySortDesc key l).Perm l := by
  unfold pySortDesc
  have h := List.mergeSort_perm (l.enum)
    (fun a b => decide (key b.2 < key a.2 ∨ (key a.2 = key b.2 ∧ a.1 ≤ b.1)))
  have h2 := h.map (fun p : ℕ × α => p.2)
  simpa [List.enum_map_snd] using h2

theorem pySortDesc_length {α : Type} (key : α → ℚ) (l : List α) :
    (pySortDesc key l).length = l.length :=
  (pySortDesc_perm key l).length_eq

theorem pySortDesc_mem {α : Type} (key : α → ℚ) (l : List α) (a : α) :
    a ∈ pySortDesc key l ↔ a ∈ l :=
  (pySortDesc_perm key l).mem_iff

/-- The output of the stable descending sort is ordered by key descending, and
among equal keys by any measure that was strictly increasing along the input. -/
theorem pySortDesc_pairwise {α : Type} (key : α → ℚ) (idx : α → ℕ) (l : List α)
    (hmono : l.Pairwise (fun a b => idx a < idx b)) :
    (pySortDesc key l).Pairwise
      (fun a b => key b < key a ∨ (key a = key b ∧ idx a < idx b)) := by
  classical
  set le : (ℕ × α) → (ℕ × α) → Bool :=
    fun a b => decide (key b.2 < key a.2 ∨ (key a.2 = key b.2 ∧ a.1 ≤ b.1)) with hle
  have htrans : ∀ a b c, le a b = true → le b c = true → le a c = true := by
    intro a b c hab hbc
    simp only [hle, decide_eq_true_eq] at hab hbc ⊢
    rcases hab with h | ⟨h1, h2⟩
    · rcases hbc with h3 | ⟨h3, h4⟩
      · exact Or.inl (lt_trans h3 h)
      · exact Or.inl (h3 ▸ h)
    · rcases hbc with h3 | ⟨h3, h4⟩
      · exact Or.inl (lt_of_lt_of_le h3 (le_of_eq h1.symm))
      · exact Or.inr ⟨h1.trans h3, h2.trans h4⟩
  have htot : ∀ a b, (le a b || le b a) = true := by
    intro a b
    simp only [hle, Bool.or_eq_true, decide_eq_true_eq]
    rcases lt_trichotomy (key a.2) (key b.2) with h | h | h
    · exact Or.inr (Or.inl h)
    · rcases Nat.le_total a.1 b.1 with h2 | h2
      · exact Or.inl (Or.inr ⟨h, h2⟩)
      · exact Or.inr (Or.inr ⟨h.symm, h2⟩)
    · exact Or.inl (Or.inl h)
  have hsorted := List.sorted_mergeSort htrans htot (l.enum)
  have hnodup : (l.enum.mergeSort le).Nodup := by
    refine (List.mergeSort_perm (l.enum) le).symm.nodup ?_
    have hfst : (l.enum.map Prod.fst).Nodup := by
      rw [List.enum_map_fst]; exact List.nodup_range l.length
    exact hfst.of_map Prod.fst
  have hmem : ∀ x : ℕ × α, x ∈ l.enum.mergeSort le → x ∈ l.enum := by
    intro x hx
    exact (List.mergeSort_perm (l.enum) le).mem_iff.mp hx
  -- facts about position-tagged elements
  have henum : ∀ x : ℕ × α, x ∈ l.enum → ∃ h : x.1 < l.length, l[x.1] = x.2 := by
    intro x hx
    have := List.mem_enum_iff_getElem?.mp hx
    have hlt : x.1 < l.length := by
      by_contra hge
      rw [List.getElem?_eq_none (le_of_not_lt hge)] at this
      exact Option.noConfusion this
    exact ⟨hlt, by
      have := this
      rw [List.getElem?_eq_getElem hlt] at this
      exact Option.some.inj this⟩
  have hkey : ∀ x y : ℕ × α, x ∈ l.enum → y ∈ l.enum → x.1 < y.1 →
      idx x.2 < idx y.2 := by
    intro x y hx hy hxy
    obtain ⟨hx1, hx2⟩ := henum x hx
    obtain ⟨hy1, hy2⟩ := henum y hy
    have := (List.pairwise_iff_getElem).mp hmono x.1 y.1 hx1 hy1 hxy
    rw [hx2, hy2] at this
    exact this
  have heq : ∀ x y : ℕ × α, x ∈ l.enum → y ∈ l.enum → x.1 = y.1 → x = y := by
    intro x y hx hy hxy
    obtain ⟨hx1, hx2⟩ := henum x hx
    obtain ⟨hy1, hy2⟩ := henum y hy
    refine Prod.ext hxy ?_
    rw [← hx2, ← hy2]
    congr 1
  have hpair := (hsorted.and hnodup)
  have hpair2 : (l.enum.mergeSort le).Pairwise
      (fun a b : ℕ × α => key b.2 < key a.2 ∨ (key a.2 = key b.2 ∧ idx a.2 < idx b.2)) := by
    refine hpair.imp_of_mem ?_
    intro a b ha hb hab
    obtain ⟨hab1, hab2⟩ := hab
    simp only [hle, decide_eq_true_eq] at hab1
    rcases hab1 with h | ⟨h1, h2⟩
    · exact Or.inl h
    · refine Or.inr ⟨h1, ?_⟩
      rcases lt_or_eq_of_le h2 with h3 | h3
      · exact hkey a b (hmem a ha) (hmem b hb) h3
      · exact absurd (heq a b (hmem a ha) (hmem b hb) h3) hab2
  unfold pySortDesc
  rw [← hle]
  exact List.pairwise_map.mpr hpair2

/-! ## Python float helpers -/

/-- Model of `math.isclose(a, b)` at its default tolerances
(`rel_tol=1e-9`, `abs_tol=0.0`), over exact rationals:
`|a - b| <= max(1e-9 * max(|a|, |b|), 0.0)`. -/
def isclose (a b : ℚ) : Bool :=
  decide (|a - b| ≤ 1 / 10 ^ 9 * max |a| |b|)

/-- Python's built-in `min` over a list (`min(vals)`); only ever applied to
non-empty lists by the code (`min` raises on an empty sequence). -/
def pyListMin : List ℚ → ℚ
  | [] => 0
  | v :: rest => rest.foldl min v

/-- Python's built-in `max` over a list (`max(vals)`). -/
def pyListMax : List ℚ → ℚ
  | [] => 0
  | v :: rest => rest.foldl max v

theorem foldl_min_le (l : List ℚ) (a : ℚ) :
    l.foldl min a ≤ a ∧ ∀ x ∈ l, l.foldl min a ≤ x := by
  induction l generalizing a with
  | nil => exact ⟨le_refl a, by intro x hx; cases hx⟩
  | cons b t ih =>
    obtain ⟨h1, h2⟩ := ih (min a b)
    refine ⟨le_trans h1 (min_le_left a b), ?_⟩
    intro x hx
    rcases List.mem_cons.mp hx with rfl | hx
    · exact le_trans h1 (min_le_right a x)
    · exact h2 x hx

theorem le_foldl_max (l : List ℚ) (a : ℚ) :
    a ≤ l.foldl max a ∧ ∀ x ∈ l, x ≤ l.foldl max a := by
  induction l generalizing a with
  | nil => exact ⟨le_refl a, by intro x hx; cases hx⟩
  | cons b t ih =>
    obtain ⟨h1, h2⟩ := ih (max a b)
    refine ⟨le_trans (le_max_left a b) h1, ?_⟩
    intro x hx
    rcases List.mem_cons.mp hx with rfl | hx
    · exact le_trans (le_max_right a x) h1
    · exact h2 x hx

theorem pyListMin_le (l : List ℚ) (x : ℚ) (hx : x ∈ l) : pyListMin l ≤ x := by
  cases l with
  | nil => cases hx
  | cons v rest =>
    rcases List.mem_cons.mp hx with rfl | hx
    · exact (foldl_min_le rest x).1
    · exact (foldl_min_le rest v).2 x hx

theorem le_pyListMax (l : List ℚ) (x : ℚ) (hx : x ∈ l) : x ≤ pyListMax l := by
  cases l with
  | nil => cases hx
  | cons v rest =>
    rcases List.mem_cons.mp hx with rfl | hx
    · exact (le_foldl_max rest x).1
    · exact (le_foldl_max rest v).2 x hx

/-! ## `_minmax_norm` (ingest_and_search_qdrant_ru.py, lines 397-404) -/

/-- Embedding of `_minmax_norm`: empty list passes through; if
`math.isclose(vmax, vmin)` every value becomes `0.0`; otherwise each value is
rescaled to `(v - vmin) / (vmax - vmin)`. -/
def _minmax_norm (vals : List ℚ) : List ℚ :=
  match vals with
  | [] => []
  | _ :: _ =>
    let vmin := pyListMin vals
    let vmax := pyListMax vals
    if isclose vmax vmin then vals.map (fun _ => 0)
    else vals.map (fun v => (v - vmin) / (vmax - vmin))


theorem minmax_norm_length (vals : List ℚ) :
    (_minmax_norm vals).length = vals.length := by
  cases vals with
  | nil => rfl
  | cons v rest =>
    unfold _minmax_norm
    by_cases h : isclose (pyListMax (v :: rest)) (pyListMin (v :: rest))
    · simp [h]
    · simp [h]

theorem minmax_norm_eq_of_isclose (vals : List ℚ)
    (h : isclose (pyListMax vals) (pyListMin vals) = true) :
    _minmax_norm vals = vals.map (fun _ => 0) := by
  cases vals with
  | nil => rfl
  | cons v rest => unfold _minmax_norm; simp [h]

theorem minmax_norm_eq_of_not_isclose (vals : List ℚ)
    (h : isclose (pyListMax vals) (pyListMin vals) = false) :
    _minmax_norm vals =
      vals.map (fun v => (v - pyListMin vals) / (pyListMax vals - pyListMin vals)) := by
  cases vals with
  | nil => rfl
  | cons v rest => unfold _minmax_norm; simp [h]

/-- C1 (amended): `_minmax_norm` maps each value `v` to `(v - min) / (max - min)`
whenever `max` and `min` are not within `math.isclose`'s default relative
tolerance `1e-9`; when they are close (which includes exact equality, hence
all-equal, singleton and empty inputs) every output value is exactly `0`; every
output value always lies in `[0, 1]`; and `normalize([5,5,5]) = [0,0,0]`,
`normalize([1,3,5]) = [0, 0.5, 1]`. -/
theorem minmax_norm_spec (vals : List ℚ) :
    (isclose (pyListMax vals) (pyListMin vals) = true →
      _minmax_norm vals = vals.map (fun _ => 0))
    ∧ (isclose (pyListMax vals) (pyListMin vals) = false →
      _minmax_norm vals =
        vals.map (fun v => (v - pyListMin vals) / (pyListMax vals - pyListMin vals)))
    ∧ (∀ x ∈ _minmax_norm vals, 0 ≤ x ∧ x ≤ 1)
    ∧ _minmax_norm [5, 5, 5] = [0, 0, 0]
    ∧ _minmax_norm [1, 3, 5] = [0, 1/2, 1] := by
  have h55 : isclose (5 : ℚ) 5 = true := by
    simp only [isclose, decide_eq_true_eq]
    norm_num
  have h51 : isclose (5 : ℚ) 1 = false := by
    simp only [isclose, decide_eq_false_iff_not]
    rw [abs_of_nonneg (by norm_num : (0:ℚ) ≤ 5 - 1),
      abs_of_nonneg (by norm_num : (0:ℚ) ≤ 5),
      abs_of_nonneg (by norm_num : (0:ℚ) ≤ 1),
      max_eq_left (by norm_num : (1:ℚ) ≤ 5)]
    norm_num
  have hmax135 : pyListMax [(1:ℚ), 3, 5] = 5 := by norm_num [pyListMax, max_def]
  have hmin135 : pyListMin [(1:ℚ), 3, 5] = 1 := by norm_num [pyListMin, min_def]
  have hmax555 : pyListMax [(5:ℚ), 5, 5] = 5 := by norm_num [pyListMax, max_def]
  have hmin555 : pyListMin [(5:ℚ), 5, 5] = 5 := by norm_num [pyListMin, min_def]
  refine ⟨minmax_norm_eq_of_isclose vals, minmax_norm_eq_of_not_isclose vals, ?_, ?_, ?_⟩
  · intro x hx
    by_cases h : isclose (pyListMax vals) (pyListMin vals)
    · rw [minmax_norm_eq_of_isclose vals h] at hx
      rw [List.mem_map] at hx
      obtain ⟨y, _, hxy⟩ := hx
      rw [← hxy]
      norm_num
    · have h0 : isclose (pyListMax vals) (pyListMin vals) = false :=
        Bool.eq_false_iff.mpr h
      rw [minmax_norm_eq_of_not_isclose vals h0] at hx
      rw [List.mem_map] at hx
      obtain ⟨y, hy, hxy⟩ := hx
      have hmin : pyListMin vals ≤ y := pyListMin_le _ y hy
      have hmax : y ≤ pyListMax vals := le_pyListMax _ y hy
      have hlt : pyListMin vals < pyListMax vals := by
        have hne : pyListMax vals ≠ pyListMin vals := by
          intro heq
          have : isclose (pyListMax vals) (pyListMin vals) = true := by
            simp only [isclose, decide_eq_true_eq, heq]
            simp
          rw [this] at h0
          exact Bool.noConfusion h0
        exact lt_of_le_of_ne (le_trans hmin hmax) (fun heq => hne heq.symm)
      rw [← hxy]
      constructor
      · exact div_nonneg (by linarith) (by linarith)
      · rw [div_le_one (by linarith)]
        linarith
  · rw [minmax_norm_eq_of_isclose [5, 5, 5] (by rw [hmax555, hmin555]; exact h55)]
    simp
  · rw [minmax_norm_eq_of_not_isclose [1, 3, 5] (by rw [hmax135, hmin135]; exact h51)]
    rw [hmax135, hmin135]
    norm_num

/-- C1 counterexample: on `[1, 1 + 1e-10]` the maximum and minimum differ, yet
`_minmax_norm` returns `[0, 0]` (because `math.isclose` fires below its `1e-9`
relative tolerance) instead of the `(v - min) / (max - min)` image `[0, 1]`
the claim requires for `max != min`. -/
theorem minmax_norm_counterexample :
    pyListMax [(1 : ℚ), 1 + 1 / 10 ^ 10] ≠ pyListMin [(1 : ℚ), 1 + 1 / 10 ^ 10]
    ∧ _minmax_norm [(1 : ℚ), 1 + 1 / 10 ^ 10] = [0, 0]
    ∧ [(1 : ℚ), 1 + 1 / 10 ^ 10].map
          (fun v => (v - pyListMin [(1 : ℚ), 1 + 1 / 10 ^ 10]) /
            (pyListMax [(1 : ℚ), 1 + 1 / 10 ^ 10] - pyListMin [(1 : ℚ), 1 + 1 / 10 ^ 10]))
        = [0, 1]
    ∧ _minmax_norm [(1 : ℚ), 1 + 1 / 10 ^ 10] ≠ [0, 1] := by
  have hmax : pyListMax [(1 : ℚ), 1 + 1 / 10 ^ 10] = 1 + 1 / 10 ^ 10 := by
    norm_num [pyListMax, max_def]
  have hmin : pyListMin [(1 : ℚ), 1 + 1 / 10 ^ 10] = 1 := by
    norm_num [pyListMin, min_def]
  have hclose : isclose (pyListMax [(1 : ℚ), 1 + 1 / 10 ^ 10])
      (pyListMin [(1 : ℚ), 1 + 1 / 10 ^ 10]) = true := by
    rw [hmax, hmin]
    simp only [isclose, decide_eq_true_eq]
    rw [abs_of_nonneg (by norm_num : (0:ℚ) ≤ 1 + 1 / 10 ^ 10 - 1),
      abs_of_nonneg (by norm_num : (0:ℚ) ≤ 1 + 1 / 10 ^ 10),
      abs_of_nonneg (by norm_num : (0:ℚ) ≤ 1),
      max_eq_left (by norm_num : (1:ℚ) ≤ 1 + 1 / 10 ^ 10)]
    norm_num
  have heval : _minmax_norm [(1 : ℚ), 1 + 1 / 10 ^ 10] = [0, 0] := by
    rw [minmax_norm_eq_of_isclose _ hclose]
    simp
  refine ⟨by rw [hmax, hmin]; norm_num, heval, ?_, ?_⟩
  · rw [hmax, hmin]
    norm_num
  · rw [heval]
    intro h
    have := List.cons.inj h
    norm_num at this
  
/-- Witness for C1: the non-degenerate branch of the amended claim evaluated at
`[1, 3, 5]`. -/
theorem minmax_norm_spec_witness :
    _minmax_norm [(1 : ℚ), 3, 5] = [0, 1/2, 1] :=
  (minmax_norm_spec [(1 : ℚ), 3, 5]).2.2.2.2

/-! ## Blending (ingest_and_search_qdrant_ru.py, `search` lines 502-504) -/

/-- Embedding of the blend step of `search`:
`alpha = max(0.0, min(1.0, alpha))` followed by
`[alpha * s + (1 - alpha) * b for s, b in zip(sem_norm, bm25_norm)]`. -/
def blendScores (semNorm bm25Norm : List ℚ) (alpha : ℚ) : List ℚ :=
  let a := max 0 (min 1 alpha)
  (semNorm.zip bm25Norm).map (fun p => a * p.1 + (1 - a) * p.2)

theorem clamp_clamp (alpha : ℚ) :
    max 0 (min 1 (max 0 (min 1 alpha))) = max 0 (min 1 alpha) := by
  rcases le_total alpha 0 with h | h
  · rw [max_eq_left (le_trans (min_le_right 1 alpha) h)]
    simp
  · rcases le_total 1 alpha with h2 | h2
    · rw [min_eq_left h2]
      norm_num
    · rw [min_eq_right h2, max_eq_right h, min_eq_right h2, max_eq_right h]

/-- C2: `blend` clamps `alpha` into `[0,1]` before use, computes the
elementwise convex combination `alpha * semNorm[i] + (1 - alpha) * bm25Norm[i]`
over the zipped lists, and over equal-length inputs collapses exactly to the
semantic list at `alpha = 1` and to the BM25 list at `alpha = 0`. -/
theorem blendScores_spec (semNorm bm25Norm : List ℚ) (alpha : ℚ) :
    blendScores semNorm bm25Norm alpha
      = blendScores semNorm bm25Norm (max 0 (min 1 alpha))
    ∧ (∀ i (hsem : i < semNorm.length) (hbm : i < bm25Norm.length),
        (blendScores semNorm bm25Norm alpha).getD i 0
          = max 0 (min 1 alpha) * semNorm[i] + (1 - max 0 (min 1 alpha)) * bm25Norm[i])
    ∧ (semNorm.length = bm25Norm.length →
        blendScores semNorm bm25Norm 1 = semNorm
        ∧ blendScores semNorm bm25Norm 0 = bm25Norm) := by
  refine ⟨?_, ?_, ?_⟩
  · unfold blendScores
    rw [clamp_clamp]
  · intro i hsem hbm
    have hzip : i < (semNorm.zip bm25Norm).length := by
      rw [List.length_zip]
      exact lt_min hsem hbm
    unfold blendScores
    rw [List.getD_eq_getElem _ _ (by simpa using hzip)]
    simp only [List.getElem_map, List.getElem_zip]
  · intro hlen
    constructor
    · unfold blendScores
      have h1 : max 0 (min 1 (1:ℚ)) = 1 := by norm_num
      rw [h1]
      have : (semNorm.zip bm25Norm).map (fun p => 1 * p.1 + (1 - 1) * p.2)
          = (semNorm.zip bm25Norm).map Prod.fst := by
        apply List.map_congr_left
        intro p _
        ring
      rw [this, List.map_fst_zip semNorm bm25Norm (le_of_eq hlen)]
    · unfold blendScores
      have h0 : max 0 (min 1 (0:ℚ)) = 0 := by norm_num
      rw [h0]
      have : (semNorm.zip bm25Norm).map (fun p => 0 * p.1 + (1 - 0) * p.2)
          = (semNorm.zip bm25Norm).map Prod.snd := by
        apply List.map_congr_left
        intro p _
        ring
      rw [this, List.map_snd_zip semNorm bm25Norm (ge_of_eq hlen)]

/-- Witness for C2 at `semNorm = [1, 1/2]`, `bm25Norm = [0, 1]`:
the elementwise formula at index 0 with an out-of-range `alpha = 2`,
and both collapse identities. -/
theorem blendScores_spec_witness :
    (blendScores [(1:ℚ), 1/2] [0, 1] 2).getD 0 0
        = max 0 (min 1 (2:ℚ)) * 1 + (1 - max 0 (min 1 (2:ℚ))) * 0
    ∧ blendScores [(1:ℚ), 1/2] [0, 1] 1 = [1, 1/2]
    ∧ blendScores [(1:ℚ), 1/2] [0, 1] 0 = [0, 1] :=
  ⟨(blendScores_spec [(1:ℚ), 1/2] [0, 1] 2).2.1 0 (by norm_num) (by norm_num),
   ((blendScores_spec [(1:ℚ), 1/2] [0, 1] 2).2.2 (by norm_num)).1,
   ((blendScores_spec [(1:ℚ), 1/2] [0, 1] 2).2.2 (by norm_num)).2⟩

/-! ## Tokenization (ingest_and_search_qdrant_ru.py, lines 344-351) -/

/-- The character class of `_TOKEN_RE`, `[A-Za-zА-Яа-яЁё0-9_-]`
(`А`..`я` is the contiguous U+0410..U+044F block). -/
def isTokenChar (c : Char) : Bool :=
  ('A' ≤ c && c ≤ 'Z') || ('a' ≤ c && c ≤ 'z')
    || ('А' ≤ c && c ≤ 'я') || c == 'Ё' || c == 'ё'
    || ('0' ≤ c && c ≤ '9') || c == '_' || c == '-'

/-- Per-character effect of `_norm_token` (`s.lower().replace("ё", "е")`) on
characters matched by the token regex: `str.lower` moves the ASCII and Russian
uppercase ranges down by 32 code points and `Ё` to `ё`; the `replace` then
turns every `ё` into `е`. -/
def _norm_char (c : Char) : Char :=
  let lc :=
    if 'A' ≤ c ∧ c ≤ 'Z' then Char.ofNat (c.toNat + 32)
    else if 'А' ≤ c ∧ c ≤ 'Я' then Char.ofNat (c.toNat + 32)
    else if c = 'Ё' then 'ё'
    else c
  if lc = 'ё' then 'е' else lc

/-- Maximal runs of token characters, as produced by `_TOKEN_RE.finditer`:
`cur` carries the (reversed) run being scanned. -/
def tokenRunsAux (cur : List Char) : List Char → List (List Char)
  | [] => if cur.isEmpty then [] else [cur.reverse]
  | c :: rest =>
    if isTokenChar c then tokenRunsAux (c :: cur) rest
    else if cur.isEmpty then tokenRunsAux [] rest
    else cur.reverse :: tokenRunsAux [] rest

/-- Embedding of `_tokenize_ru`: each maximal token-character run of the text,
normalized by `_norm_token`. -/
def _tokenize_ru (s : String) : List String :=
  (tokenRunsAux [] s.data).map (fun cs => String.mk (cs.map _norm_char))

/-- `list(dict.fromkeys(xs))`: the distinct elements of `xs`, keeping the first
occurrence of each, in order; `seen` carries the keys already emitted. -/
def dedupFirstAux {α : Type} [BEq α] (seen : List α) : List α → List α
  | [] => []
  | a :: l =>
    if seen.contains a then dedupFirstAux seen l
    else a :: dedupFirstAux (a :: seen) l

/-- `q_terms = list(dict.fromkeys(q_tokens))`. -/
def dedupFirst {α : Type} [BEq α] (l : List α) : List α :=
  dedupFirstAux [] l

theorem mem_dedupFirstAux {α : Type} [DecidableEq α] (a : α) :
    ∀ (l seen : List α), a ∈ dedupFirstAux seen l ↔ a ∈ l ∧ ¬ seen.contains a := by
  intro l
  induction l with
  | nil => intro seen; simp [dedupFirstAux]
  | cons b t ih =>
    intro seen
    unfold dedupFirstAux
    by_cases hb : seen.contains b
    · rw [if_pos hb, ih seen]
      constructor
      · rintro ⟨h1, h2⟩
        exact ⟨List.mem_cons_of_mem b h1, h2⟩
      · rintro ⟨h1, h2⟩
        rcases List.mem_cons.mp h1 with rfl | h1
        · exact absurd hb h2
        · exact ⟨h1, h2⟩
    · rw [if_neg hb]
      constructor
      · intro h
        rcases List.mem_cons.mp h with rfl | h
        · exact ⟨List.mem_cons_self a t, hb⟩
        · rw [ih (b :: seen)] at h
          obtain ⟨h1, h2⟩ := h
          refine ⟨List.mem_cons_of_mem b h1, ?_⟩
          intro hc
          exact h2 (by
            rw [List.contains_cons]
            simp only [hc, Bool.or_true])
      · rintro ⟨h1, h2⟩
        rcases List.mem_cons.mp h1 with rfl | h1
        · exact List.mem_cons_self a _
        · by_cases hab : a = b
          · subst hab
            exact List.mem_cons_self a _
          · refine List.mem_cons_of_mem b ?_
            rw [ih (b :: seen)]
            refine ⟨h1, ?_⟩
            rw [List.contains_cons]
            simp only [Bool.or_eq_true, beq_iff_eq]
            push_neg
            refine ⟨hab, ?_⟩
            intro hc
            exact h2 hc

theorem mem_dedupFirst {α : Type} [DecidableEq α] (a : α) (l : List α) :
    a ∈ dedupFirst l ↔ a ∈ l := by
  unfold dedupFirst
  rw [mem_dedupFirstAux]
  simp

/-! ## BM25 (ingest_and_search_qdrant_ru.py, lines 352-395) -/

/-- `avgdl = (sum(doc_len) / D) if D > 0 else 1.0`. -/
def bm25Avgdl (docTokens : List (List String)) : ℚ :=
  if 0 < docTokens.length then
    ((docTokens.map List.length).sum : ℚ) / (docTokens.length : ℚ)
  else 1

/-- `df[t]`: how many pool documents contain the term at least once. -/
def bm25Df (docTokens : List (List String)) (t : String) : ℕ :=
  docTokens.countP (fun toks => decide (t ∈ toks))

/-- `idf[t] = log((D - df[t] + 0.5) / (df[t] + 0.5) + 1.0)`, the library call
`math.log` abstracted as `logQ`. -/
def bm25Idf (logQ : ℚ → ℚ) (docTokens : List (List String)) (t : String) : ℚ :=
  logQ (((docTokens.length : ℚ) - (bm25Df docTokens t : ℚ) + 1/2)
      / ((bm25Df docTokens t : ℚ) + 1/2) + 1)

/-- `denom = 1 - b + b * (doc_len[i] / max(avgdl, 1e-9))`. -/
def bm25Denom (docTokens : List (List String)) (b : ℚ) (dl : ℕ) : ℚ :=
  1 - b + b * ((dl : ℚ) / max (bm25Avgdl docTokens) (1 / 10 ^ 9))

/-- The claim's denominator, dividing by `avgdl` itself with no
`max(avgdl, 1e-9)` guard. -/
def bm25ClaimDenom (docTokens : List (List String)) (b : ℚ) (dl : ℕ) : ℚ :=
  1 - b + b * ((dl : ℚ) / bm25Avgdl docTokens)

/-- Score of one candidate document: the `for t in q_terms` accumulation, the
`continue` on `tf.get(t, 0) == 0` rendered as a zero contribution. -/
def bm25DocScore (logQ : ℚ → ℚ) (qTerms : List String)
    (docTokens : List (List String)) (k1 b : ℚ) (toks : List String) : ℚ :=
  (qTerms.map (fun t =>
    if toks.count t = 0 then 0
    else bm25Idf logQ docTokens t *
      ((toks.count t : ℚ) * (k1 + 1)
        / ((toks.count t : ℚ) + k1 * bm25Denom docTokens b toks.length)))).sum

/-- Embedding of `_bm25_scores`, one score per candidate in order. -/
def _bm25_scores (logQ : ℚ → ℚ) (query : String) (docs : List String)
    (k1 b : ℚ) : List ℚ :=
  let qTerms := dedupFirst (_tokenize_ru query)
  let docTokens := docs.map _tokenize_ru
  docTokens.map (bm25DocScore logQ qTerms docTokens k1 b)

/-- Candidate score written exactly as the claim states it: a sum over all
unique query terms with no `tf == 0` skip, and the unguarded `avgdl`
denominator. -/
def bm25ClaimScores (logQ : ℚ → ℚ) (query : String) (docs : List String)
    (k1 b : ℚ) : List ℚ :=
  let qTerms := dedupFirst (_tokenize_ru query)
  let docTokens := docs.map _tokenize_ru
  docTokens.map (fun toks =>
    (qTerms.map (fun t =>
      bm25Idf logQ docTokens t *
        ((toks.count t : ℚ) * (k1 + 1)
          / ((toks.count t : ℚ) + k1 * bm25ClaimDenom docTokens b toks.length)))).sum)

theorem bm25_scores_length (logQ : ℚ → ℚ) (query : String) (docs : List String)
    (k1 b : ℚ) : (_bm25_scores logQ query docs k1 b).length = docs.length := by
  unfold _bm25_scores
  simp

theorem bm25_scores_getD (logQ : ℚ → ℚ) (query : String) (docs : List String)
    (k1 b : ℚ) (i : ℕ) (hi : i < docs.length) :
    (_bm25_scores logQ query docs k1 b).getD i 0
      = bm25DocScore logQ (dedupFirst (_tokenize_ru query))
          (docs.map _tokenize_ru) k1 b (_tokenize_ru (docs.getD i "")) := by
  unfold _bm25_scores
  rw [List.getD_eq_getElem _ _ (by simpa using hi)]
  rw [List.getD_eq_getElem _ _ hi]
  simp [List.getElem_map]

theorem bm25DocScore_eq_claim_sum (logQ : ℚ → ℚ) (qTerms : List String)
    (docTokens : List (List String)) (k1 b : ℚ) (toks : List String) :
    bm25DocScore logQ qTerms docTokens k1 b toks
      = (qTerms.map (fun t =>
          bm25Idf logQ docTokens t *
            ((toks.count t : ℚ) * (k1 + 1)
              / ((toks.count t : ℚ) + k1 * bm25Denom docTokens b toks.length)))).sum := by
  unfold bm25DocScore
  congr 1
  apply List.map_congr_left
  intro t _
  by_cases hc : toks.count t = 0
  · rw [if_pos hc, hc]
    simp
  · rw [if_neg hc]

/-- C3 (amended): `_bm25_scores` with the default `k1 = 1.5`, `b = 0.75`
returns one score per candidate aligned by index; each candidate's score is
`Σ_t idf(t) * (tf(t,c) * (k1+1)) / (tf(t,c) + k1 * (1 - b + b * len(c) / max(avgdl, 1e-9)))`
over the unique query terms in order of first occurrence, where `avgdl` is the
pool's mean token count (`1.0` when the pool is empty), `df(t)` is counted
within the candidate pool only and `idf(t) = log((D - df(t) + 0.5) / (df(t) + 0.5) + 1.0)`;
a candidate sharing no term with the query scores exactly `0`. -/
theorem bm25_scores_spec (logQ : ℚ → ℚ) (query : String) (docs : List String) :
    (_bm25_scores logQ query docs (3/2) (3/4)).length = docs.length
    ∧ (∀ i, i < docs.length →
        (_bm25_scores logQ query docs (3/2) (3/4)).getD i 0
          = ((dedupFirst (_tokenize_ru query)).map (fun t =>
              bm25Idf logQ (docs.map _tokenize_ru) t *
                (((_tokenize_ru (docs.getD i "")).count t : ℚ) * (3/2 + 1)
                  / (((_tokenize_ru (docs.getD i "")).count t : ℚ)
                    + 3/2 * bm25Denom (docs.map _tokenize_ru) (3/4)
                        (_tokenize_ru (docs.getD i "")).length)))).sum)
    ∧ (∀ i, i < docs.length →
        (∀ t ∈ _tokenize_ru query, t ∉ _tokenize_ru (docs.getD i "")) →
        (_bm25_scores logQ query docs (3/2) (3/4)).getD i 0 = 0) := by
  refine ⟨bm25_scores_length logQ query docs (3/2) (3/4), ?_, ?_⟩
  · intro i hi
    rw [bm25_scores_getD logQ query docs (3/2) (3/4) i hi]
    exact bm25DocScore_eq_claim_sum logQ _ _ (3/2) (3/4) _
  · intro i hi hnone
    rw [bm25_scores_getD logQ query docs (3/2) (3/4) i hi]
    unfold bm25DocScore
    apply List.sum_eq_zero
    intro x hx
    rw [List.mem_map] at hx
    obtain ⟨t, ht, hxe⟩ := hx
    have ht2 : t ∈ _tokenize_ru query := (mem_dedupFirst t _).mp ht
    have hc : (_tokenize_ru (docs.getD i "")).count t = 0 :=
      List.count_eq_zero.mpr (hnone t ht2)
    rw [← hxe, if_pos hc]

/-- Witness for C3: the zero-overlap clause evaluated on the pool
`["b", "c"]` for query `"a b"` at index 1. -/
theorem bm25_scores_spec_witness :
    (_bm25_scores (fun _ => 1) "a b" ["b", "c"] (3/2) (3/4)).getD 1 0 = 0 :=
  (bm25_scores_spec (fun _ => 1) "a b" ["b", "c"]).2.2 1 (by decide) (by decide)

theorem countP_replicate {α : Type} (p : α → Bool) (n : ℕ) (x : α) :
    (List.replicate n x).countP p = if p x then n else 0 := by
  induction n with
  | zero => simp
  | succ m ih =>
    rw [List.replicate_succ, List.countP_cons, ih]
    by_cases h : p x
    · simp [h]
    · simp [h]


theorem bm25_cx_general (n : ℕ) (h2 : (10:ℚ) ^ 9 < (n:ℚ) + 1) :
    _bm25_scores (fun _ => 1) "a" ("a" :: List.replicate n "") (3/2) (3/4)
      ≠ bm25ClaimScores (fun _ => 1) "a" ("a" :: List.replicate n "") (3/2) (3/4) := by
  have htokA : _tokenize_ru "a" = ["a"] := by decide
  have htokE : _tokenize_ru "" = [] := by decide
  have hdedup : dedupFirst (_tokenize_ru "a") = ["a"] := by decide
  have hdt : ("a" :: List.replicate n "").map _tokenize_ru
      = ["a"] :: List.replicate n [] := by
    rw [List.map_cons, List.map_replicate, htokA, htokE]
  have hn1 : (0:ℚ) < (n:ℚ) + 1 := by positivity
  have havg : bm25Avgdl (["a"] :: List.replicate n []) = 1 / ((n:ℚ) + 1) := by
    unfold bm25Avgdl
    rw [if_pos (by rw [List.length_cons]; omega)]
    rw [List.map_cons, List.map_replicate, List.sum_cons, List.sum_replicate]
    simp only [List.length_nil, List.length_cons, List.length_replicate, smul_zero,
      add_zero, zero_add]
    push_cast
    norm_num
  have hmax : max (1 / ((n:ℚ) + 1)) (1 / 10 ^ 9) = 1 / 10 ^ 9 := by
    apply max_eq_right
    rw [one_div, one_div, inv_le_inv₀ hn1 (by norm_num)]
    linarith
  have hD1 : bm25Denom (["a"] :: List.replicate n []) (3/4) 1
      = 1/4 + 3/4 * 10 ^ 9 := by
    unfold bm25Denom
    rw [havg, hmax]
    norm_num
  have hD2 : bm25ClaimDenom (["a"] :: List.replicate n []) (3/4) 1
      = 1/4 + 3/4 * ((n:ℚ) + 1) := by
    unfold bm25ClaimDenom
    rw [havg, Nat.cast_one, one_div_one_div]
    ring
  intro heq
  unfold _bm25_scores bm25ClaimScores at heq
  rw [hdt, hdedup, List.map_cons, List.map_cons] at heq
  have hhead := (List.cons.inj heq).1
  unfold bm25DocScore at hhead
  rw [List.map_singleton, List.map_singleton, List.sum_singleton, List.sum_singleton] at hhead
  have hcount : (["a"] : List String).count "a" = 1 := by decide
  have hlen1 : (["a"] : List String).length = 1 := by decide
  rw [hcount, hlen1, if_neg one_ne_zero, hD1, hD2] at hhead
  unfold bm25Idf at hhead
  have hne1 : (1:ℚ) + 3/2 * (1/4 + 3/4 * 10 ^ 9) ≠ 0 := by positivity
  have hne2 : (1:ℚ) + 3/2 * (1/4 + 3/4 * ((n:ℚ) + 1)) ≠ 0 := by positivity
  rw [Nat.cast_one] at hhead
  field_simp at hhead
  linarith

theorem bm25_scores_counterexample :
    _bm25_scores (fun _ => 1) "a" ("a" :: List.replicate (2 * 10 ^ 9 - 1) "") (3/2) (3/4)
      ≠ bm25ClaimScores (fun _ => 1) "a" ("a" :: List.replicate (2 * 10 ^ 9 - 1) "") (3/2) (3/4) := by
  refine bm25_cx_general (2 * 10 ^ 9 - 1) ?_
  norm_num

/-! ## Division-checked BM25 (safety: no division by zero anywhere in `_bm25_scores`) -/

/-- Division that signals a zero divisor instead of defaulting, used to show
the code never divides by zero. -/
def divChecked (a b : ℚ) : Option ℚ :=
  if b = 0 then none else some (a / b)

/-- `avgdl` with its division checked: the `sum(doc_len) / D` division is only
reached when `D > 0`. -/
def bm25AvgdlChecked (docTokens : List (List String)) : Option ℚ :=
  if 0 < docTokens.length then
    divChecked ((docTokens.map List.length).sum : ℚ) (docTokens.length : ℚ)
  else some 1

/-- `idf[t]` with its division checked. -/
def bm25IdfChecked (logQ : ℚ → ℚ) (docTokens : List (List String)) (t : String) :
    Option ℚ :=
  (divChecked ((docTokens.length : ℚ) - (bm25Df docTokens t : ℚ) + 1/2)
      ((bm25Df docTokens t : ℚ) + 1/2)).map (fun x => logQ (x + 1))

/-- `denom` with both of its divisions checked. -/
def bm25DenomChecked (docTokens : List (List String)) (b : ℚ) (dl : ℕ) : Option ℚ :=
  (bm25AvgdlChecked docTokens).bind (fun avgdl =>
    (divChecked (dl : ℚ) (max avgdl (1 / 10 ^ 9))).map (fun x => 1 - b + b * x))

/-- One candidate's score with every division checked, the term loop rendered
as a monadic fold. -/
def bm25DocScoreChecked (logQ : ℚ → ℚ) (qTerms : List String)
    (docTokens : List (List String)) (k1 b : ℚ) (toks : List String) : Option ℚ :=
  (bm25DenomChecked docTokens b toks.length).bind (fun denom =>
    qTerms.foldlM (fun s t =>
      if toks.count t = 0 then some s
      else (bm25IdfChecked logQ docTokens t).bind (fun idf =>
        (divChecked ((toks.count t : ℚ) * (k1 + 1)) ((toks.count t : ℚ) + k1 * denom)).map
          (fun q => s + idf * q))) 0)

/-- `_bm25_scores` with every division checked. -/
def _bm25_scores_checked (logQ : ℚ → ℚ) (query : String) (docs : List String)
    (k1 b : ℚ) : Option (List ℚ) :=
  let qTerms := dedupFirst (_tokenize_ru query)
  let docTokens := docs.map _tokenize_ru
  docTokens.mapM (bm25DocScoreChecked logQ qTerms docTokens k1 b)

theorem bm25AvgdlChecked_eq (docTokens : List (List String)) :
    bm25AvgdlChecked docTokens = some (bm25Avgdl docTokens)
    ∧ 0 ≤ bm25Avgdl docTokens := by
  unfold bm25AvgdlChecked bm25Avgdl
  by_cases h : 0 < docTokens.length
  · rw [if_pos h, if_pos h]
    have hD : ((docTokens.length : ℚ)) ≠ 0 := by
      exact_mod_cast Nat.pos_iff_ne_zero.mp h
    unfold divChecked
    rw [if_neg hD]
    refine ⟨rfl, ?_⟩
    apply div_nonneg
    · exact_mod_cast Nat.zero_le _
    · exact_mod_cast Nat.zero_le _
  · rw [if_neg h, if_neg h]
    exact ⟨rfl, by norm_num⟩

theorem bm25DenomChecked_eq (docTokens : List (List String)) (dl : ℕ) :
    bm25DenomChecked docTokens (3/4) dl = some (bm25Denom docTokens (3/4) dl)
    ∧ 1/4 ≤ bm25Denom docTokens (3/4) dl := by
  obtain ⟨ha, ha0⟩ := bm25AvgdlChecked_eq docTokens
  have hmax : (0:ℚ) < max (bm25Avgdl docTokens) (1 / 10 ^ 9) :=
    lt_of_lt_of_le (by norm_num) (le_max_right _ _)
  constructor
  · unfold bm25DenomChecked
    rw [ha]
    show ((divChecked (dl : ℚ) (max (bm25Avgdl docTokens) (1 / 10 ^ 9))).map
        (fun x => 1 - 3/4 + 3/4 * x)) = some (bm25Denom docTokens (3/4) dl)
    unfold divChecked
    rw [if_neg (ne_of_gt hmax)]
    rfl
  · unfold bm25Denom
    have : (0:ℚ) ≤ (dl : ℚ) / max (bm25Avgdl docTokens) (1 / 10 ^ 9) :=
      div_nonneg (by exact_mod_cast Nat.zero_le _) (le_of_lt hmax)
    linarith

theorem bm25IdfChecked_eq (logQ : ℚ → ℚ) (docTokens : List (List String)) (t : String) :
    bm25IdfChecked logQ docTokens t = some (bm25Idf logQ docTokens t) := by
  unfold bm25IdfChecked bm25Idf
  have hdf : ((bm25Df docTokens t : ℚ) + 1/2) ≠ 0 := by
    have : (0:ℚ) ≤ (bm25Df docTokens t : ℚ) := by exact_mod_cast Nat.zero_le _
    intro h
    nlinarith
  unfold divChecked
  rw [if_neg hdf]
  rfl

theorem bm25_foldlM_eq (logQ : ℚ → ℚ) (docTokens : List (List String))
    (toks : List String) (denom : ℚ) (hd : 1/4 ≤ denom) :
    ∀ (qTerms : List String) (s : ℚ),
      (qTerms.foldlM (fun s t =>
        if toks.count t = 0 then some s
        else (bm25IdfChecked logQ docTokens t).bind (fun idf =>
          (divChecked ((toks.count t : ℚ) * (3/2 + 1)) ((toks.count t : ℚ) + 3/2 * denom)).map
            (fun q => s + idf * q))) s)
      = some (s + (qTerms.map (fun t =>
          if toks.count t = 0 then 0
          else bm25Idf logQ docTokens t *
            ((toks.count t : ℚ) * (3/2 + 1)
              / ((toks.count t : ℚ) + 3/2 * denom)))).sum) := by
  intro qTerms
  induction qTerms with
  | nil => intro s; simp
  | cons t ts ih =>
    intro s
    rw [List.foldlM_cons]
    by_cases hc : toks.count t = 0
    · rw [if_pos hc]
      show (ts.foldlM _ s) = _
      rw [ih s]
      simp [hc]
    · have hden : ((toks.count t : ℚ) + 3/2 * denom) ≠ 0 := by
        have h1 : (1:ℚ) ≤ (toks.count t : ℚ) := by
          exact_mod_cast Nat.one_le_iff_ne_zero.mpr hc
        nlinarith
      have hstep : (bm25IdfChecked logQ docTokens t).bind (fun idf =>
          (divChecked ((toks.count t : ℚ) * (3/2 + 1))
            ((toks.count t : ℚ) + 3/2 * denom)).map (fun q => s + idf * q))
          = some (s + bm25Idf logQ docTokens t *
              ((toks.count t : ℚ) * (3/2 + 1) / ((toks.count t : ℚ) + 3/2 * denom))) := by
        rw [bm25IdfChecked_eq]
        unfold divChecked
        rw [if_neg hden]
        rfl
      rw [if_neg hc, hstep]
      show (ts.foldlM _ (s + bm25Idf logQ docTokens t *
          ((toks.count t : ℚ) * (3/2 + 1) / ((toks.count t : ℚ) + 3/2 * denom)))) = _
      rw [ih]
      rw [List.map_cons, List.sum_cons, if_neg hc]
      congr 1
      ring

theorem mapM_eq_some_map {α β : Type} (f : α → Option β) (g : α → β) (l : List α)
    (h : ∀ x ∈ l, f x = some (g x)) : l.mapM f = some (l.map g) := by
  induction l with
  | nil => rfl
  | cons a t ih =>
    rw [List.mapM_cons, h a (List.mem_cons_self a t),
      ih (fun x hx => h x (List.mem_cons_of_mem a hx))]
    rfl

theorem bm25DocScoreChecked_eq (logQ : ℚ → ℚ) (qTerms : List String)
    (docTokens : List (List String)) (toks : List String) :
    bm25DocScoreChecked logQ qTerms docTokens (3/2) (3/4) toks
      = some (bm25DocScore logQ qTerms docTokens (3/2) (3/4) toks) := by
  obtain ⟨hd, hd4⟩ := bm25DenomChecked_eq docTokens toks.length
  unfold bm25DocScoreChecked
  rw [hd]
  show (qTerms.foldlM _ (0:ℚ)) = _
  rw [bm25_foldlM_eq logQ docTokens toks (bm25Denom docTokens (3/4) toks.length) hd4
    qTerms 0]
  unfold bm25DocScore
  rw [zero_add]

/-- C10: for every query and candidate pool (including a non-empty pool whose
candidate texts are all empty, where `avgdl = 0`), `_bm25_scores` at the
default `k1 = 1.5`, `b = 0.75` reaches no division by zero — the
division-checked evaluation succeeds and agrees with it — and returns exactly
one (finite rational) score per candidate. -/
theorem bm25_scores_total (logQ : ℚ → ℚ) (query : String) (docs : List String) :
    _bm25_scores_checked logQ query docs (3/2) (3/4)
      = some (_bm25_scores logQ query docs (3/2) (3/4))
    ∧ (_bm25_scores logQ query docs (3/2) (3/4)).length = docs.length := by
  refine ⟨?_, bm25_scores_length _ _ _ _ _⟩
  unfold _bm25_scores_checked _bm25_scores
  exact mapM_eq_some_map _ _ _ (fun toks _ => bm25DocScoreChecked_eq _ _ _ toks)

/-! ## Sparse cosine similarity (chatbot/local_index.py, lines 207-229) -/

/-- The dot-product loop of `_cosine_similarity`: iterate the entries of one
dict, look each key up in the other, skip missing keys, accumulate products.
Python dicts are modelled as association lists with distinct keys. -/
def cosineDotLoop {α : Type} [BEq α] (iter lkup : List (α × ℚ)) : ℚ :=
  iter.foldl (fun acc p =>
    match lkup.lookup p.1 with
    | none => acc
    | some other => acc + p.2 * other) 0

/-- The local variable `dot` of `_cosine_similarity`: the shorter dict is the
one iterated, the longer the one looked up in. -/
def cosineDotSel {α : Type} [BEq α] (lhs rhs : List (α × ℚ)) : ℚ :=
  if lhs.length < rhs.length then cosineDotLoop lhs rhs
  else cosineDotLoop rhs lhs

/-- Embedding of `_cosine_similarity`: `0` on a zero norm, the smaller dict
iterated against the larger, non-positive dot products returned as `0`,
otherwise `dot / (lhs_norm * rhs_norm)`. -/
def _cosine_similarity {α : Type} [BEq α] (lhs rhs : List (α × ℚ))
    (lhs_norm rhs_norm : ℚ) : ℚ :=
  if lhs_norm = 0 ∨ rhs_norm = 0 then 0
  else if cosineDotSel lhs rhs ≤ 0 then 0
  else cosineDotSel lhs rhs / (lhs_norm * rhs_norm)

/-- `_cosine_similarity` with its one division checked. -/
def _cosine_similarity_checked {α : Type} [BEq α] (lhs rhs : List (α × ℚ))
    (lhs_norm rhs_norm : ℚ) : Option ℚ :=
  if lhs_norm = 0 ∨ rhs_norm = 0 then some 0
  else if cosineDotSel lhs rhs ≤ 0 then some 0
  else divChecked (cosineDotSel lhs rhs) (lhs_norm * rhs_norm)

/-- The mathematical sparse dot product `dot(q, d) = Σ_{(k, w) ∈ q} w * d[k]`,
absent keys of `d` contributing `0`. -/
def sparseDot {α : Type} [BEq α] (q d : List (α × ℚ)) : ℚ :=
  (q.map (fun p => p.2 * ((d.lookup p.1).getD 0))).sum

theorem cosineDotLoop_eq_sparseDot {α : Type} [BEq α] (iter lkup : List (α × ℚ)) :
    cosineDotLoop iter lkup = sparseDot iter lkup := by
  unfold cosineDotLoop sparseDot
  suffices h : ∀ acc : ℚ, (iter.foldl (fun acc p =>
      match lkup.lookup p.1 with
      | none => acc
      | some other => acc + p.2 * other) acc)
      = acc + (iter.map (fun p => p.2 * ((lkup.lookup p.1).getD 0))).sum by
    rw [h 0, zero_add]
  induction iter with
  | nil => intro acc; simp
  | cons p t ih =>
    intro acc
    rw [List.foldl_cons, List.map_cons, List.sum_cons]
    cases hl : lkup.lookup p.1 with
    | none => rw [ih acc]; simp [hl]
    | some v => rw [ih (acc + p.2 * v)]; simp [hl]; ring

theorem lookup_eq_some_of_mem {α : Type} [BEq α] [LawfulBEq α] (l : List (α × ℚ))
    (p : α × ℚ) (hnd : (l.map Prod.fst).Nodup) (hp : p ∈ l) :
    l.lookup p.1 = some p.2 := by
  induction l with
  | nil => cases hp
  | cons q t ih =>
    obtain ⟨qk, qv⟩ := q
    rw [List.map_cons, List.nodup_cons] at hnd
    obtain ⟨hq, hnd2⟩ := hnd
    rcases List.mem_cons.mp hp with rfl | hp2
    · rw [List.lookup_cons]
      simp
    · have hne : (p.1 == qk) = false := by
        simp only [beq_eq_false_iff_ne, ne_eq]
        intro he
        exact hq (he ▸ List.mem_map.mpr ⟨p, hp2, rfl⟩)
      rw [List.lookup_cons, hne]
      exact ih hnd2 hp2

theorem lookup_eq_none_of_not_mem {α : Type} [BEq α] [LawfulBEq α] (l : List (α × ℚ))
    (k : α) (h : k ∉ l.map Prod.fst) : l.lookup k = none := by
  induction l with
  | nil => rfl
  | cons q t ih =>
    obtain ⟨qk, qv⟩ := q
    rw [List.map_cons, List.mem_cons] at h
    rw [not_or] at h
    obtain ⟨h1, h2⟩ := h
    rw [List.lookup_cons]
    have : (k == qk) = false := by simp [h1]
    rw [this]
    exact ih h2

theorem mem_of_lookup_eq_some {α : Type} [BEq α] [LawfulBEq α] (l : List (α × ℚ))
    (k : α) (v : ℚ) (h : l.lookup k = some v) : (k, v) ∈ l := by
  induction l with
  | nil => exact Option.noConfusion h
  | cons q t ih =>
    obtain ⟨qk, qv⟩ := q
    rw [List.lookup_cons] at h
    by_cases he : k = qk
    · subst he
      simp only [beq_self_eq_true] at h
      exact (Option.some.inj h) ▸ List.mem_cons_self _ _
    · have : (k == qk) = false := by simp [he]
      rw [this] at h
      exact List.mem_cons_of_mem _ (ih h)

theorem sparseDot_eq_finset {α : Type} [BEq α] [LawfulBEq α] [DecidableEq α]
    (l r : List (α × ℚ)) (hl : (l.map Prod.fst).Nodup) :
    sparseDot l r = ∑ k ∈ (l.map Prod.fst).toFinset,
      ((l.lookup k).getD 0) * ((r.lookup k).getD 0) := by
  unfold sparseDot
  rw [List.sum_toFinset _ hl, List.map_map]
  congr 1
  apply List.map_congr_left
  intro p hp
  have := lookup_eq_some_of_mem l p hl hp
  rw [Function.comp_apply, this, Option.getD_some]

theorem sum_keys_congr {α : Type} (s₁ s₂ : Finset α) (g : α → ℚ)
    (h1 : ∀ k ∈ s₁, k ∉ s₂ → g k = 0) (h2 : ∀ k ∈ s₂, k ∉ s₁ → g k = 0) :
    ∑ k ∈ s₁, g k = ∑ k ∈ s₂, g k := by
  classical
  rw [Finset.sum_subset (Finset.subset_union_left : s₁ ⊆ s₁ ∪ s₂)
    (fun k hk hk1 => h2 k (by
      rcases Finset.mem_union.mp hk with h | h
      · exact absurd h hk1
      · exact h) hk1)]
  rw [Finset.sum_subset (Finset.subset_union_right : s₂ ⊆ s₁ ∪ s₂)
    (fun k hk hk2 => h1 k (by
      rcases Finset.mem_union.mp hk with h | h
      · exact h
      · exact absurd h hk2) hk2)]

theorem sparseDot_comm {α : Type} [BEq α] [LawfulBEq α] [DecidableEq α]
    (l r : List (α × ℚ)) (hl : (l.map Prod.fst).Nodup)
    (hr : (r.map Prod.fst).Nodup) :
    sparseDot l r = sparseDot r l := by
  rw [sparseDot_eq_finset l r hl, sparseDot_eq_finset r l hr]
  have hcomm : ∑ k ∈ (r.map Prod.fst).toFinset,
      ((r.lookup k).getD 0) * ((l.lookup k).getD 0)
      = ∑ k ∈ (r.map Prod.fst).toFinset,
        ((l.lookup k).getD 0) * ((r.lookup k).getD 0) :=
    Finset.sum_congr rfl (fun k _ => mul_comm _ _)
  rw [hcomm]
  apply sum_keys_congr
  · intro k _ hk2
    rw [lookup_eq_none_of_not_mem r k (fun hc => hk2 (List.mem_toFinset.mpr hc))]
    simp
  · intro k _ hk1
    rw [lookup_eq_none_of_not_mem l k (fun hc => hk1 (List.mem_toFinset.mpr hc))]
    simp

theorem sparseDot_nonneg {α : Type} [BEq α] [LawfulBEq α] (l r : List (α × ℚ))
    (hl : ∀ p ∈ l, 0 ≤ p.2) (hr : ∀ p ∈ r, 0 ≤ p.2) : 0 ≤ sparseDot l r := by
  unfold sparseDot
  apply List.sum_nonneg
  intro x hx
  rw [List.mem_map] at hx
  obtain ⟨p, hp, hxe⟩ := hx
  rw [← hxe]
  apply mul_nonneg (hl p hp)
  cases hlk : r.lookup p.1 with
  | none => simp
  | some v => simpa using hr (p.1, v) (mem_of_lookup_eq_some r p.1 v hlk)

theorem cosineDotSel_eq {α : Type} [BEq α] [LawfulBEq α] [DecidableEq α]
    (lhs rhs : List (α × ℚ)) (hl : (lhs.map Prod.fst).Nodup)
    (hr : (rhs.map Prod.fst).Nodup) :
    cosineDotSel lhs rhs = sparseDot lhs rhs := by
  unfold cosineDotSel
  by_cases h : lhs.length < rhs.length
  · rw [if_pos h, cosineDotLoop_eq_sparseDot]
  · rw [if_neg h, cosineDotLoop_eq_sparseDot, sparseDot_comm rhs lhs hr hl]

/-- C5: `_cosine_similarity` performs no division by zero on any input (the
checked evaluation always succeeds), and on genuine sparse vectors — distinct
keys, non-negative tf-idf weights — it returns `0` whenever either norm is
zero and `dot(q, d) / (lhs_norm * rhs_norm)` whenever both norms are non-zero. -/
theorem cosine_similarity_spec :
    (∀ (lhs rhs : List (ℕ × ℚ)) (lhs_norm rhs_norm : ℚ),
        _cosine_similarity_checked lhs rhs lhs_norm rhs_norm
          = some (_cosine_similarity lhs rhs lhs_norm rhs_norm))
    ∧ (∀ (lhs rhs : List (ℕ × ℚ)) (lhs_norm rhs_norm : ℚ),
        (lhs.map Prod.fst).Nodup → (rhs.map Prod.fst).Nodup →
        (∀ p ∈ lhs, 0 ≤ p.2) → (∀ p ∈ rhs, 0 ≤ p.2) →
        ((lhs_norm = 0 ∨ rhs_norm = 0 →
            _cosine_similarity lhs rhs lhs_norm rhs_norm = 0)
          ∧ (lhs_norm ≠ 0 → rhs_norm ≠ 0 →
            _cosine_similarity lhs rhs lhs_norm rhs_norm
              = sparseDot lhs rhs / (lhs_norm * rhs_norm)))) := by
  constructor
  · intro lhs rhs ln rn
    unfold _cosine_similarity_checked _cosine_similarity
    by_cases h0 : ln = 0 ∨ rn = 0
    · rw [if_pos h0, if_pos h0]
    · rw [if_neg h0, if_neg h0]
      by_cases hd : cosineDotSel lhs rhs ≤ 0
      · rw [if_pos hd, if_pos hd]
      · rw [if_neg hd, if_neg hd]
        unfold divChecked
        rw [if_neg (mul_ne_zero (fun h => h0 (Or.inl h)) (fun h => h0 (Or.inr h)))]
  · intro lhs rhs ln rn hndl hndr hwl hwr
    constructor
    · intro h0
      unfold _cosine_similarity
      rw [if_pos h0]
    · intro hln hrn
      unfold _cosine_similarity
      rw [if_neg (by
        intro h
        rcases h with h | h
        · exact hln h
        · exact hrn h)]
      rw [cosineDotSel_eq lhs rhs hndl hndr]
      by_cases hd : sparseDot lhs rhs ≤ 0
      · rw [if_pos hd]
        have h0 : sparseDot lhs rhs = 0 :=
          le_antisymm hd (sparseDot_nonneg lhs rhs hwl hwr)
        rw [h0, zero_div]
      · rw [if_neg hd]

/-- Witness for C5: concrete sparse vectors `{0: 1, 1: 2}` and `{1: 3}` with
unit norms. -/
theorem cosine_similarity_spec_witness :
    _cosine_similarity [((0:ℕ), (1:ℚ)), (1, 2)] [(1, 3)] 1 1
      = sparseDot [((0:ℕ), (1:ℚ)), (1, 2)] [(1, 3)] / (1 * 1) :=
  ((cosine_similarity_spec.2 [((0:ℕ), (1:ℚ)), (1, 2)] [(1, 3)] 1 1
      (by decide) (by decide) (by decide) (by decide)).2 one_ne_zero one_ne_zero)

/-! ## The tf-idf local index (chatbot/local_index.py) -/

/-- `_IndexedDocument`: one document of the local knowledge base. -/
structure _IndexedDocument where
  collection : String
  text : String
  normalized_tokens : List String
deriving Repr, DecidableEq

instance : Inhabited _IndexedDocument :=
  ⟨⟨"", "", []⟩⟩

/-- Whether a token is a key of `df_counter` (equivalently of
`_token_to_index` and `_idf`): it occurs in at least one indexed document. -/
def inVocab (docs : List _IndexedDocument) (t : String) : Bool :=
  docs.any (fun d => decide (t ∈ d.normalized_tokens))

/-- `df_counter[t]`: the number of indexed documents containing `t`. -/
def dfLocal (docs : List _IndexedDocument) (t : String) : ℕ :=
  docs.countP (fun d => decide (t ∈ d.normalized_tokens))

/-- `self._idf[t] = log((1 + N) / (1 + df(t))) + 1`, `math.log` abstracted as
`logQ`. -/
def idfLocal (logQ : ℚ → ℚ) (docs : List _IndexedDocument) (t : String) : ℚ :=
  logQ ((1 + (docs.length : ℚ)) / (1 + (dfLocal docs t : ℚ))) + 1

/-- The same idf line over the reals with the genuine `math.log`, for the
analytic positivity claim. -/
noncomputable def idfLocalReal (docs : List _IndexedDocument) (t : String) : ℝ :=
  Real.log ((1 + (docs.length : ℝ)) / (1 + (dfLocal docs t : ℝ))) + 1

/-- The body of the `for token, count in counts.items()` loop of
`_encode_tokens`: out-of-vocabulary tokens and zero weights are skipped,
otherwise the weight `tf * idf` with `tf = count / total` is stored. -/
def tokenWeight (logQ : ℚ → ℚ) (docs : List _IndexedDocument)
    (tokens : List String) (t : String) : Option ℚ :=
  if inVocab docs t then
    (if ((tokens.count t : ℚ) / (tokens.length : ℚ)) * idfLocal logQ docs t = 0 then none
     else some (((tokens.count t : ℚ) / (tokens.length : ℚ)) * idfLocal logQ docs t))
  else none

/-- Embedding of `_encode_tokens`: the sparse vector (an association list
keyed by token, in `Counter` insertion order, i.e. first occurrence order) and
its norm `sqrt(Σ w²)`, `math.sqrt` abstracted as `sqrtQ`. -/
def _encode_tokens (logQ sqrtQ : ℚ → ℚ) (docs : List _IndexedDocument)
    (tokens : List String) : List (String × ℚ) × ℚ :=
  if tokens.length = 0 then ([], 0)
  else
    let vector := (dedupFirst tokens).filterMap
      (fun t => (tokenWeight logQ docs tokens t).map (fun w => (t, w)))
    (vector, sqrtQ ((vector.map (fun p => p.2 * p.2)).sum))

/-- `str.split()` with no separator argument: maximal whitespace runs
separate the pieces, and no empty pieces are produced; `cur` carries the
(reversed) piece being scanned. -/
def pySplitAux (cur : List Char) : List Char → List String
  | [] => if cur.isEmpty then [] else [String.mk cur.reverse]
  | c :: rest =>
    if c.isWhitespace then
      (if cur.isEmpty then pySplitAux [] rest
       else String.mk cur.reverse :: pySplitAux [] rest)
    else pySplitAux (c :: cur) rest

/-- `str.split()`: split on whitespace runs, no empty pieces. -/
def pySplit (s : String) : List String :=
  pySplitAux [] s.data

/-- `_encode_text`: queries are whitespace-split, then encoded. -/
def _encode_text (logQ sqrtQ : ℚ → ℚ) (docs : List _IndexedDocument)
    (text : String) : List (String × ℚ) × ℚ :=
  _encode_tokens logQ sqrtQ docs (pySplit text)

/-- The `scored` list of `LocalIndex.search`, tagged with document positions:
documents with zero norm are skipped, each remaining document is scored by
`_cosine_similarity`, non-positive scores are dropped, and the survivors are
sorted by score descending (CPython's stable sort). -/
def searchScored (logQ sqrtQ : ℚ → ℚ) (docs : List _IndexedDocument)
    (text : String) : List (ℕ × ℚ) :=
  let enc := _encode_text logQ sqrtQ docs text
  if enc.1 = [] ∨ enc.2 = 0 then []
  else
    pySortDesc (fun p => p.2)
      ((docs.enum).filterMap (fun pr =>
        (let dv := _encode_tokens logQ sqrtQ docs pr.2.normalized_tokens
         if dv.2 = 0 then none
         else
           (let score := _cosine_similarity enc.1 dv.1 enc.2 dv.2
            if score ≤ 0 then none else some (pr.1, score)))))

/-- `SearchResult` (chatbot/rag.py): a found document. -/
structure SearchResult where
  collection : String
  score : ℚ
  text : String
deriving Repr, DecidableEq

/-- Embedding of `LocalIndex.search` (its returned result list): the scored
survivors, truncated to `limit` and rendered as `SearchResult`s. -/
def localIndexSearch (logQ sqrtQ : ℚ → ℚ) (docs : List _IndexedDocument)
    (text : String) (limit : ℕ) : List SearchResult :=
  ((searchScored logQ sqrtQ docs text).take limit).map (fun p =>
    { collection := (docs.getD p.1 default).collection
      score := p.2
      text := (docs.getD p.1 default).text })

theorem pairwise_filterMap_of_pairwise {α β : Type} (f : α → Option β)
    (R : α → α → Prop) (S : β → β → Prop) (l : List α) (h : l.Pairwise R)
    (hf : ∀ a b a2 b2, f a = some a2 → f b = some b2 → R a b → S a2 b2) :
    (l.filterMap f).Pairwise S := by
  induction l with
  | nil => constructor
  | cons a t ih =>
    rw [List.filterMap_cons]
    obtain ⟨h1, h2⟩ := List.pairwise_cons.mp h
    cases hfa : f a with
    | none => exact ih h2
    | some a2 =>
      rw [List.pairwise_cons]
      refine ⟨?_, ih h2⟩
      intro b2 hb2
      rw [List.mem_filterMap] at hb2
      obtain ⟨b, hb, hfb⟩ := hb2
      exact hf a b a2 b2 hfa hfb (h1 b hb)

theorem enum_pairwise_fst {α : Type} (l : List α) :
    l.enum.Pairwise (fun a b => a.1 < b.1) := by
  rw [List.pairwise_iff_getElem]
  intro i j hi hj hij
  rw [List.getElem_enum, List.getElem_enum]
  exact hij

theorem searchScored_mem (logQ sqrtQ : ℚ → ℚ) (docs : List _IndexedDocument)
    (text : String) (p : ℕ × ℚ) (hp : p ∈ searchScored logQ sqrtQ docs text) :
    0 < p.2 := by
  unfold searchScored at hp
  by_cases h0 : (_encode_text logQ sqrtQ docs text).1 = []
      ∨ (_encode_text logQ sqrtQ docs text).2 = 0
  · rw [if_pos h0] at hp
    cases hp
  · rw [if_neg h0] at hp
    rw [pySortDesc_mem] at hp
    rw [List.mem_filterMap] at hp
    obtain ⟨pr, _, hf⟩ := hp
    by_cases hn : (_encode_tokens logQ sqrtQ docs pr.2.normalized_tokens).2 = 0
    · rw [if_pos hn] at hf
      exact Option.noConfusion hf
    · rw [if_neg hn] at hf
      by_cases hs : _cosine_similarity (_encode_text logQ sqrtQ docs text).1
          (_encode_tokens logQ sqrtQ docs pr.2.normalized_tokens).1
          (_encode_text logQ sqrtQ docs text).2
          (_encode_tokens logQ sqrtQ docs pr.2.normalized_tokens).2 ≤ 0
      · rw [if_pos hs] at hf
        exact Option.noConfusion hf
      · rw [if_neg hs] at hf
        rw [← Option.some.inj hf]
        exact lt_of_not_le hs

theorem searchScored_pairwise (logQ sqrtQ : ℚ → ℚ) (docs : List _IndexedDocument)
    (text : String) :
    (searchScored logQ sqrtQ docs text).Pairwise
      (fun a b => b.2 < a.2 ∨ (a.2 = b.2 ∧ a.1 < b.1)) := by
  unfold searchScored
  by_cases h0 : (_encode_text logQ sqrtQ docs text).1 = []
      ∨ (_encode_text logQ sqrtQ docs text).2 = 0
  · rw [if_pos h0]
    constructor
  · rw [if_neg h0]
    apply pySortDesc_pairwise (fun p : ℕ × ℚ => p.2) (fun p : ℕ × ℚ => p.1)
    apply pairwise_filterMap_of_pairwise _ (fun a b : ℕ × _IndexedDocument => a.1 < b.1)
    · exact enum_pairwise_fst docs
    · intro a b a2 b2 hfa hfb hab
      have hfst : ∀ (pr : ℕ × _IndexedDocument) (q : ℕ × ℚ),
          (if (_encode_tokens logQ sqrtQ docs pr.2.normalized_tokens).2 = 0 then none
           else
             (if _cosine_similarity (_encode_text logQ sqrtQ docs text).1
                  (_encode_tokens logQ sqrtQ docs pr.2.normalized_tokens).1
                  (_encode_text logQ sqrtQ docs text).2
                  (_encode_tokens logQ sqrtQ docs pr.2.normalized_tokens).2 ≤ 0 then none
              else some (pr.1, _cosine_similarity (_encode_text logQ sqrtQ docs text).1
                  (_encode_tokens logQ sqrtQ docs pr.2.normalized_tokens).1
                  (_encode_text logQ sqrtQ docs text).2
                  (_encode_tokens logQ sqrtQ docs pr.2.normalized_tokens).2))) = some q
          → q.1 = pr.1 := by
        intro pr q h
        by_cases hn : (_encode_tokens logQ sqrtQ docs pr.2.normalized_tokens).2 = 0
        · rw [if_pos hn] at h
          exact Option.noConfusion h
        · rw [if_neg hn] at h
          by_cases hs : _cosine_similarity (_encode_text logQ sqrtQ docs text).1
              (_encode_tokens logQ sqrtQ docs pr.2.normalized_tokens).1
              (_encode_text logQ sqrtQ docs text).2
              (_encode_tokens logQ sqrtQ docs pr.2.normalized_tokens).2 ≤ 0
          · rw [if_pos hs] at h
            exact Option.noConfusion h
          · rw [if_neg hs] at h
            rw [← Option.some.inj h]
      rw [hfst a a2 hfa, hfst b b2 hfb]
      exact hab

/-- C6: the local sparse search keeps only candidates whose cosine similarity
to the query is strictly positive; the scored list is sorted by similarity
descending with ties broken by document position (ascending), so two calls on
the same index and query produce the same ordered results; the returned
`SearchResult`s are the truncation of that list, hence sorted descending with
positive scores. -/
theorem localIndexSearch_spec (logQ sqrtQ : ℚ → ℚ) (docs : List _IndexedDocument)
    (text : String) (limit : ℕ) :
    (∀ p ∈ searchScored logQ sqrtQ docs text, 0 < p.2)
    ∧ (searchScored logQ sqrtQ docs text).Pairwise
        (fun a b => b.2 < a.2 ∨ (a.2 = b.2 ∧ a.1 < b.1))
    ∧ (∀ r ∈ localIndexSearch logQ sqrtQ docs text limit, 0 < r.score)
    ∧ (localIndexSearch logQ sqrtQ docs text limit).Pairwise
        (fun a b => b.score ≤ a.score) := by
  refine ⟨fun p hp => searchScored_mem logQ sqrtQ docs text p hp,
    searchScored_pairwise logQ sqrtQ docs text, ?_, ?_⟩
  · intro r hr
    unfold localIndexSearch at hr
    rw [List.mem_map] at hr
    obtain ⟨p, hp, hre⟩ := hr
    have hp2 : p ∈ searchScored logQ sqrtQ docs text :=
      (List.take_sublist limit _).mem hp
    rw [← hre]
    exact searchScored_mem logQ sqrtQ docs text p hp2
  · unfold localIndexSearch
    rw [List.pairwise_map]
    have h1 : (searchScored logQ sqrtQ docs text).Pairwise
        (fun a b : ℕ × ℚ => b.2 ≤ a.2) :=
      (searchScored_pairwise logQ sqrtQ docs text).imp (by
        intro a b hab
        rcases hab with h | ⟨h, _⟩
        · exact le_of_lt h
        · exact le_of_eq h.symm)
    exact List.Pairwise.sublist (List.take_sublist limit _) h1

theorem pySortDesc_singleton {α : Type} (key : α → ℚ) (a : α) :
    pySortDesc key [a] = [a] := by
  unfold pySortDesc
  rw [show ([a].enum) = [(0, a)] from rfl]
  rw [List.mergeSort_singleton]
  rfl

theorem w_tokenWeight : tokenWeight (fun _ => 0) [⟨"c1", "hello", ["a"]⟩] ["a"] "a"
    = some 1 := by
  unfold tokenWeight idfLocal dfLocal inVocab
  norm_num [List.any_cons, List.count_cons, List.countP_cons]

theorem w_enc : _encode_tokens (fun _ => 0) (fun x => x) [⟨"c1", "hello", ["a"]⟩] ["a"]
    = ([("a", 1)], 1) := by
  unfold _encode_tokens
  rw [if_neg (by decide : ¬(["a"] : List String).length = 0)]
  rw [show dedupFirst ["a"] = ["a"] from by decide]
  rw [List.filterMap_cons, List.filterMap_nil, w_tokenWeight]
  norm_num

theorem w_query : _encode_text (fun _ => 0) (fun x => x) [⟨"c1", "hello", ["a"]⟩] "a"
    = ([("a", 1)], 1) := by
  unfold _encode_text
  rw [show pySplit "a" = ["a"] from by decide]
  exact w_enc

theorem w_cos : _cosine_similarity [("a", (1:ℚ))] [("a", 1)] 1 1 = 1 := by
  unfold _cosine_similarity cosineDotSel cosineDotLoop
  norm_num [List.lookup_cons]

theorem w_scored : searchScored (fun _ => 0) (fun x => x) [⟨"c1", "hello", ["a"]⟩] "a"
    = [(0, 1)] := by
  unfold searchScored
  rw [w_query]
  rw [if_neg (by norm_num)]
  rw [show ([⟨"c1", "hello", ["a"]⟩] : List _IndexedDocument).enum
      = [(0, ⟨"c1", "hello", ["a"]⟩)] from rfl]
  rw [List.filterMap_cons, List.filterMap_nil]
  rw [w_enc]
  rw [if_neg (by norm_num : ¬(1:ℚ) = 0)]
  rw [w_cos]
  rw [if_neg (by norm_num : ¬(1:ℚ) ≤ 0)]
  exact pySortDesc_singleton _ _

/-- Witness for C6: on a one-document index with matching query the scored
list is exactly `[(0, 1)]`, and the theorem yields its positivity. -/
theorem localIndexSearch_spec_witness :
    ((0:ℕ), (1:ℚ)) ∈ searchScored (fun _ => 0) (fun x => x)
        [⟨"c1", "hello", ["a"]⟩] "a"
    ∧ (0:ℚ) < ((0:ℕ), (1:ℚ)).2 := by
  refine ⟨by rw [w_scored]; exact List.mem_singleton.mpr rfl, ?_⟩
  exact (localIndexSearch_spec (fun _ => 0) (fun x => x)
      [⟨"c1", "hello", ["a"]⟩] "a" 5).1 ((0:ℕ), (1:ℚ))
    (by rw [w_scored]; exact List.mem_singleton.mpr rfl)

theorem nodup_dedupFirstAux {α : Type} [DecidableEq α] :
    ∀ (l seen : List α), (dedupFirstAux seen l).Nodup := by
  intro l
  induction l with
  | nil => intro seen; constructor
  | cons a t ih =>
    intro seen
    unfold dedupFirstAux
    by_cases hb : seen.contains a
    · rw [if_pos hb]
      exact ih seen
    · rw [if_neg hb]
      rw [List.nodup_cons]
      refine ⟨?_, ih (a :: seen)⟩
      intro hmem
      have := (mem_dedupFirstAux a t (a :: seen)).mp hmem
      apply this.2
      rw [List.contains_cons]
      simp

theorem nodup_dedupFirst {α : Type} [DecidableEq α] (l : List α) :
    (dedupFirst l).Nodup :=
  nodup_dedupFirstAux l []

theorem lookup_filterMap_weight {α : Type} [BEq α] [LawfulBEq α] (l : List α)
    (F : α → Option ℚ) (t : α) (hnd : l.Nodup) :
    (l.filterMap (fun a => (F a).map (fun w => (a, w)))).lookup t
      = if t ∈ l then F t else none := by
  induction l with
  | nil => rfl
  | cons a t2 ih =>
    rw [List.nodup_cons] at hnd
    obtain ⟨ha, hnd2⟩ := hnd
    rw [List.filterMap_cons]
    by_cases hta : t = a
    · subst hta
      rw [if_pos (List.mem_cons_self t t2)]
      cases hF : F t with
      | none =>
        show List.lookup t (List.filterMap
          (fun a => (F a).map (fun w => (a, w))) t2) = none
        rw [ih hnd2, if_neg ha]
      | some w =>
        show List.lookup t ((t, w) :: List.filterMap
          (fun a => (F a).map (fun w => (a, w))) t2) = some w
        rw [List.lookup_cons]
        simp
    · have hstep : (if t ∈ t2 then F t else none)
          = if t ∈ a :: t2 then F t else none := by
        by_cases htm : t ∈ t2
        · rw [if_pos htm, if_pos (List.mem_cons_of_mem a htm)]
        · rw [if_neg htm, if_neg (by
            intro hc
            rcases List.mem_cons.mp hc with h | h
            · exact hta h
            · exact htm h)]
      cases hF : F a with
      | none =>
        show List.lookup t (List.filterMap
          (fun a => (F a).map (fun w => (a, w))) t2) = _
        rw [ih hnd2, hstep]
      | some w =>
        show List.lookup t ((a, w) :: List.filterMap
          (fun a => (F a).map (fun w => (a, w))) t2) = _
        rw [List.lookup_cons]
        have hbeq : (t == a) = false := by simp [hta]
        rw [hbeq, ih hnd2]
        show (if t ∈ t2 then F t else none) = _
        rw [hstep]

/-- C7: over any indexed corpus, the idf of the local index is
`ln((1 + N) / (1 + df(t))) + 1`; it is strictly positive for every token that
occurs in at least one indexed document (the divisor `1 + df(t)` is never
zero, also when `df(t) = N`); and the sparse weight stored for an in-corpus
token is exactly `tf(t, d) * idf(t)` with `tf = count(t in d) / totalTokens(d)`. -/
theorem localIndex_idf_spec :
    (∀ (docs : List _IndexedDocument) (t : String),
        (∃ d ∈ docs, t ∈ d.normalized_tokens) → 0 < idfLocalReal docs t)
    ∧ (∀ (logQ sqrtQ : ℚ → ℚ) (docs : List _IndexedDocument)
          (tokens : List String) (t : String),
        ((_encode_tokens logQ sqrtQ docs tokens).1).lookup t
          = if t ∈ tokens then tokenWeight logQ docs tokens t else none)
    ∧ (∀ (logQ : ℚ → ℚ) (docs : List _IndexedDocument) (tokens : List String)
          (t : String) (w : ℚ), tokenWeight logQ docs tokens t = some w →
        w = ((tokens.count t : ℚ) / (tokens.length : ℚ)) * idfLocal logQ docs t) := by
  refine ⟨?_, ?_, ?_⟩
  · rintro docs t ⟨d, hd, htd⟩
    unfold idfLocalReal
    have hdf1 : 0 < dfLocal docs t := by
      unfold dfLocal
      rw [List.countP_pos]
      exact ⟨d, hd, by simpa using htd⟩
    have hdfN : dfLocal docs t ≤ docs.length := List.countP_le_length _
    have hpos : (0:ℝ) < 1 + (dfLocal docs t : ℝ) := by positivity
    have harg : 1 ≤ (1 + (docs.length : ℝ)) / (1 + (dfLocal docs t : ℝ)) := by
      rw [le_div_iff hpos]
      have : (dfLocal docs t : ℝ) ≤ (docs.length : ℝ) := by exact_mod_cast hdfN
      linarith
    have hlog := Real.log_nonneg harg
    linarith
  · intro logQ sqrtQ docs tokens t
    unfold _encode_tokens
    by_cases h0 : tokens.length = 0
    · rw [if_pos h0]
      have : tokens = [] := List.length_eq_zero.mp h0
      subst this
      rw [if_neg (List.not_mem_nil t)]
      rfl
    · rw [if_neg h0]
      rw [lookup_filterMap_weight _ _ _ (nodup_dedupFirst tokens)]
      by_cases htm : t ∈ tokens
      · rw [if_pos ((mem_dedupFirst t tokens).mpr htm), if_pos htm]
      · rw [if_neg (fun hc => htm ((mem_dedupFirst t tokens).mp hc)), if_neg htm]
  · intro logQ docs tokens t w hw
    unfold tokenWeight at hw
    by_cases hv : inVocab docs t
    · rw [if_pos hv] at hw
      by_cases hz : ((tokens.count t : ℚ) / (tokens.length : ℚ)) * idfLocal logQ docs t = 0
      · rw [if_pos hz] at hw
        exact Option.noConfusion hw
      · rw [if_neg hz] at hw
        exact (Option.some.inj hw).symm
    · rw [if_neg hv] at hw
      exact Option.noConfusion hw

/-- Witness for C7: the corpus `[["a"]]` and its only token; the positivity
and weight clauses applied there. -/
theorem localIndex_idf_spec_witness :
    (0:ℝ) < idfLocalReal [⟨"c1", "hello", ["a"]⟩] "a"
    ∧ ((1:ℚ) = ((["a"].count "a" : ℚ) / ((["a"] : List String).length : ℚ))
        * idfLocal (fun _ => 0) [⟨"c1", "hello", ["a"]⟩] "a") :=
  ⟨localIndex_idf_spec.1 [⟨"c1", "hello", ["a"]⟩] "a"
      ⟨⟨"c1", "hello", ["a"]⟩, by decide, by decide⟩,
   localIndex_idf_spec.2.2 (fun _ => 0) [⟨"c1", "hello", ["a"]⟩] ["a"] "a" 1
      w_tokenWeight⟩

/-! ## Payload text extraction (rag.py, lines 54-79) -/

/-- The `raw` sub-dict of a Qdrant payload, with the fields
`extract_payload_text` probes; `text_blocks` keeps the mapping's values in
insertion order. -/
structure RawPayload where
  text_blocks : Option (List String)
  text : Option String
  category : Option String
  question : Option String
  answer : Option String
deriving Repr, DecidableEq

/-- A Qdrant payload with the fields the engine reads. -/
structure Payload where
  text : Option String
  text_bm25 : Option String
  raw : Option RawPayload
deriving Repr, DecidableEq

/-- Python truthiness of `payload.get(key)` for a string field: present and
non-empty. -/
def truthyStr : Option String → Bool
  | none => false
  | some s => !s.isEmpty

/-- `"\n".join(str(value) for value in text_blocks.values() if value)`. -/
def joinTextBlocks (raw : RawPayload) : String :=
  String.intercalate "\n" ((raw.text_blocks.getD []).filter (fun v => !v.isEmpty))

/-- Embedding of `extract_payload_text`: prefer `payload["text"] or
payload["text_bm25"]`; else join the truthy values of `raw["text_blocks"]`;
else `raw["text"]`; else, when `raw["category"] == "faq"` and question or
answer is non-empty, render `"Вопрос: {q}\nОтвет: {a}"`; else `""`. -/
def extract_payload_text (p : Payload) : String :=
  let text := if truthyStr p.text then p.text else p.text_bm25
  if truthyStr text then text.getD ""
  else
    match p.raw with
    | none => ""
    | some raw =>
      if !(joinTextBlocks raw).isEmpty then joinTextBlocks raw
      else if truthyStr raw.text then raw.text.getD ""
      else if raw.category = some "faq" then
        (if !(raw.question.getD "").isEmpty || !(raw.answer.getD "").isEmpty then
          "Вопрос: " ++ raw.question.getD "" ++ "\n" ++ "Ответ: " ++ raw.answer.getD ""
        else "")
      else ""

theorem isEmpty_false_of_ne (j : String) (hj : j ≠ "") : j.isEmpty = false := by
  rw [← Bool.not_eq_true, String.isEmpty_iff]
  exact hj

/-- C9 (amended): the extraction fallback chain — the explicit `text` field
(or `text_bm25`) if truthy; else the joined truthy values of a `text_blocks`
mapping; else `raw["text"]`; else, for question/answer-shaped (`faq`) records,
the rendering `"Вопрос: {q}\nОтвет: {a}"`; a payload matching none of these
yields the empty string. -/
theorem extract_payload_text_spec (p : Payload) :
    (truthyStr p.text = true → extract_payload_text p = p.text.getD "")
    ∧ (truthyStr p.text = false → truthyStr p.text_bm25 = true →
        extract_payload_text p = p.text_bm25.getD "")
    ∧ (truthyStr p.text = false → truthyStr p.text_bm25 = false → p.raw = none →
        extract_payload_text p = "")
    ∧ (∀ raw, truthyStr p.text = false → truthyStr p.text_bm25 = false →
        p.raw = some raw →
        ((joinTextBlocks raw ≠ "" → extract_payload_text p = joinTextBlocks raw)
          ∧ (joinTextBlocks raw = "" → truthyStr raw.text = true →
              extract_payload_text p = raw.text.getD "")
          ∧ (joinTextBlocks raw = "" → truthyStr raw.text = false →
              raw.category = some "faq" →
              (raw.question.getD "" ≠ "" ∨ raw.answer.getD "" ≠ "") →
              extract_payload_text p
                = "Вопрос: " ++ raw.question.getD "" ++ "\n" ++ "Ответ: "
                    ++ raw.answer.getD "")
          ∧ (joinTextBlocks raw = "" → truthyStr raw.text = false →
              raw.category ≠ some "faq" →
              extract_payload_text p = ""))) := by
  have hsel : ∀ (h1 : truthyStr p.text = false),
      (if truthyStr p.text then p.text else p.text_bm25) = p.text_bm25 := by
    intro h1
    rw [if_neg (by rw [h1]; exact Bool.false_ne_true)]
  refine ⟨?_, ?_, ?_, ?_⟩
  · intro h1
    unfold extract_payload_text
    rw [if_pos h1, if_pos h1]
  · intro h1 h2
    unfold extract_payload_text
    rw [hsel h1, if_pos h2]
  · intro h1 h2 h3
    unfold extract_payload_text
    rw [hsel h1, if_neg (by rw [h2]; exact Bool.false_ne_true), h3]
  · intro raw h1 h2 h3
    have hbase : extract_payload_text p
        = (if !(joinTextBlocks raw).isEmpty then joinTextBlocks raw
          else if truthyStr raw.text then raw.text.getD ""
          else if raw.category = some "faq" then
            (if !(raw.question.getD "").isEmpty || !(raw.answer.getD "").isEmpty then
              "Вопрос: " ++ raw.question.getD "" ++ "\n" ++ "Ответ: "
                ++ raw.answer.getD ""
            else "")
          else "") := by
      unfold extract_payload_text
      rw [hsel h1, if_neg (by rw [h2]; exact Bool.false_ne_true), h3]
    refine ⟨?_, ?_, ?_, ?_⟩
    · intro hj
      rw [hbase, if_pos (by simp [isEmpty_false_of_ne _ hj])]
    · intro hj ht
      rw [hbase, if_neg (by simp [String.isEmpty_iff, hj]), if_pos (by rw [ht])]
    · intro hj ht hc hqa
      rw [hbase, if_neg (by simp [String.isEmpty_iff, hj]),
        if_neg (by rw [ht]; exact Bool.false_ne_true), if_pos hc,
        if_pos (by
          rcases hqa with h | h
          · simp [isEmpty_false_of_ne _ h]
          · simp [isEmpty_false_of_ne _ h])]
    · intro hj ht hc
      rw [hbase, if_neg (by simp [String.isEmpty_iff, hj]),
        if_neg (by rw [ht]; exact Bool.false_ne_true), if_neg hc]

/-- C9 counterexample: a question/answer-shaped payload is rendered with the
Russian labels `"Вопрос: {q}\nОтвет: {a}"`, not the literal
`"Question: {q}\nAnswer: {a}"` the claim specifies. -/
theorem extract_payload_text_counterexample :
    extract_payload_text
        ⟨none, none, some ⟨none, none, some "faq", some "Q1", some "A1"⟩⟩
      = "Вопрос: Q1\nОтвет: A1"
    ∧ extract_payload_text
        ⟨none, none, some ⟨none, none, some "faq", some "Q1", some "A1"⟩⟩
      ≠ "Question: Q1\nAnswer: A1" :=
  ⟨by decide, by decide⟩

/-- Witness for C9: the faq branch at a concrete payload. -/
theorem extract_payload_text_spec_witness :
    extract_payload_text
        ⟨none, none, some ⟨none, none, some "faq", some "Q1", some "A1"⟩⟩
      = "Вопрос: " ++ (some "Q1").getD "" ++ "\n" ++ "Ответ: "
          ++ (some "A1").getD "" :=
  ((extract_payload_text_spec
      ⟨none, none, some ⟨none, none, some "faq", some "Q1", some "A1"⟩⟩).2.2.2
    ⟨none, none, some "faq", some "Q1", some "A1"⟩ rfl rfl rfl).2.2.1
    (by decide) rfl rfl (Or.inl (by decide))

/-! ## Multi-collection aggregation (rag.py, lines 82-118) -/

/-- A point returned by the dense backend: `hit.payload` (possibly `None`) and
`hit.score`. -/
structure QdrantHit where
  payload : Option Payload
  score : ℚ
deriving Repr, DecidableEq

/-- One collection's contribution to the aggregation: a failing backend call
is caught and skipped (yields nothing), otherwise every hit with extractable
text becomes a `SearchResult` carrying its collection and score. -/
def collectionCandidates (backend : String → Except String (List QdrantHit))
    (c : String) : List SearchResult :=
  match backend c with
  | .error _ => []
  | .ok hits => hits.filterMap (fun h =>
      if extract_payload_text (h.payload.getD ⟨none, none, none⟩) = "" then none
      else some ⟨c, h.score, extract_payload_text (h.payload.getD ⟨none, none, none⟩)⟩)

/-- The `aggregated` list of `search_all_collections`. -/
def aggregatedCandidates (backend : String → Except String (List QdrantHit))
    (collections : List String) : List SearchResult :=
  collections.flatMap (collectionCandidates backend)

/-- Embedding of `search_all_collections`: aggregate, then
`heapq.nlargest(limit, aggregated, key=score)` — the stable descending sort by
score, truncated to `limit`. -/
def search_all_collections (backend : String → Except String (List QdrantHit))
    (collections : List String) (limit : ℕ) : List SearchResult :=
  (pySortDesc (fun r => r.score) (aggregatedCandidates backend collections)).take limit

theorem aggregated_filter_ok (backend : String → Except String (List QdrantHit))
    (collections : List String) :
    aggregatedCandidates backend collections
      = aggregatedCandidates backend
          (collections.filter (fun c => (backend c).toBool)) := by
  induction collections with
  | nil => rfl
  | cons c t ih =>
    unfold aggregatedCandidates
    rw [List.flatMap_cons, List.filter_cons]
    cases hb : backend c with
    | error e =>
      have hc : collectionCandidates backend c = [] := by
        unfold collectionCandidates
        rw [hb]
      rw [if_neg (by exact Bool.false_ne_true), hc, List.nil_append]
      unfold aggregatedCandidates at ih
      exact ih
    | ok hits =>
      rw [if_pos (by rfl), List.flatMap_cons]
      unfold aggregatedCandidates at ih
      rw [ih]

/-- C8: a collection whose backend call fails is skipped and the aggregated
search still succeeds on the remaining collections — the result is unchanged
if failing collections are dropped from the list, prepending a failing
collection changes nothing, and every returned candidate comes from a
collection whose backend call succeeded. -/
theorem search_all_collections_spec
    (backend : String → Except String (List QdrantHit))
    (collections : List String) (limit : ℕ) :
    search_all_collections backend collections limit
      = search_all_collections backend
          (collections.filter (fun c => (backend c).toBool)) limit
    ∧ (∀ c e, backend c = .error e →
        search_all_collections backend (c :: collections) limit
          = search_all_collections backend collections limit)
    ∧ (∀ r ∈ search_all_collections backend collections limit,
        ∃ c ∈ collections, (backend c).toBool = true ∧ r.collection = c) := by
  refine ⟨?_, ?_, ?_⟩
  · unfold search_all_collections
    rw [← aggregated_filter_ok]
  · intro c e hb
    unfold search_all_collections
    have hagg : aggregatedCandidates backend (c :: collections)
        = aggregatedCandidates backend collections := by
      unfold aggregatedCandidates
      rw [List.flatMap_cons]
      have hc : collectionCandidates backend c = [] := by
        unfold collectionCandidates
        rw [hb]
      rw [hc, List.nil_append]
    rw [hagg]
  · intro r hr
    unfold search_all_collections at hr
    have hr2 : r ∈ aggregatedCandidates backend collections := by
      have h1 := (List.take_sublist limit _).mem hr
      exact (pySortDesc_mem _ _ r).mp h1
    unfold aggregatedCandidates at hr2
    rw [List.mem_flatMap] at hr2
    obtain ⟨c, hc, hrc⟩ := hr2
    cases hb : backend c with
    | error e =>
      have hnil : collectionCandidates backend c = [] := by
        unfold collectionCandidates
        rw [hb]
      rw [hnil] at hrc
      cases hrc
    | ok hits =>
      have hform : collectionCandidates backend c = hits.filterMap (fun h =>
          if extract_payload_text (h.payload.getD ⟨none, none, none⟩) = "" then none
          else some ⟨c, h.score,
            extract_payload_text (h.payload.getD ⟨none, none, none⟩)⟩) := by
        unfold collectionCandidates
        rw [hb]
      rw [hform, List.mem_filterMap] at hrc
      obtain ⟨h, _, hh⟩ := hrc
      by_cases ht : extract_payload_text (h.payload.getD ⟨none, none, none⟩) = ""
      · rw [if_pos ht] at hh
        exact Option.noConfusion hh
      · rw [if_neg ht] at hh
        refine ⟨c, hc, by rw [hb]; rfl, ?_⟩
        rw [← Option.some.inj hh]

/-- A two-collection backend for the witnesses: `"bad"` fails, `"good"`
returns one hit with text. -/
def demoBackend : String → Except String (List QdrantHit) :=
  fun c => if c = "bad" then .error "timeout"
    else .ok [⟨some ⟨some "hello", none, none⟩, 1⟩]

/-- Witness for C8: prepending the failing collection `"bad"` leaves the
aggregated search over `["good"]` unchanged. -/
theorem search_all_collections_spec_witness :
    search_all_collections demoBackend ("bad" :: ["good"]) 5
      = search_all_collections demoBackend ["good"] 5 :=
  (search_all_collections_spec demoBackend ["good"] 5).2.1 "bad" "timeout" (by rfl)

/-! ## The hybrid ranking tail of `search` (ingest_and_search_qdrant_ru.py, lines 489-520) -/

/-- One line of the final hybrid result. -/
structure HybridResult where
  score_sem : ℚ
  score_sem_norm : ℚ
  score_bm25 : ℚ
  score_bm25_norm : ℚ
  score_blended : ℚ
  payload : Payload
deriving Repr, DecidableEq

/-- `sem_scores`: the raw semantic scores, `None` read as `0.0`. -/
def hybridSemScores (raw : List (Payload × Option ℚ)) : List ℚ :=
  raw.map (fun pr => pr.2.getD 0)

/-- `sem_norm = _minmax_norm(sem_scores)`. -/
def hybridSemNorm (raw : List (Payload × Option ℚ)) : List ℚ :=
  _minmax_norm (hybridSemScores raw)

/-- `docs = [pl.get("text_bm25", "") for (pl, _) in raw]`. -/
def hybridDocs (raw : List (Payload × Option ℚ)) : List String :=
  raw.map (fun pr => pr.1.text_bm25.getD "")

/-- `bm25 = _bm25_scores(query, docs)` at the default `k1`, `b`. -/
def hybridBm25 (logQ : ℚ → ℚ) (query : String)
    (raw : List (Payload × Option ℚ)) : List ℚ :=
  _bm25_scores logQ query (hybridDocs raw) (3/2) (3/4)

/-- `bm25_norm = _minmax_norm(bm25)`. -/
def hybridBm25Norm (logQ : ℚ → ℚ) (query : String)
    (raw : List (Payload × Option ℚ)) : List ℚ :=
  _minmax_norm (hybridBm25 logQ query raw)

/-- `blended`: the clamped-`alpha` convex combination of the two normalized
signals. -/
def hybridBlended (logQ : ℚ → ℚ) (query : String)
    (raw : List (Payload × Option ℚ)) (alpha : ℚ) : List ℚ :=
  blendScores (hybridSemNorm raw) (hybridBm25Norm logQ query raw) alpha

/-- `idx`: candidate indices sorted by blended score descending (CPython's
stable `list.sort(..., reverse=True)`). -/
def hybridIdx (logQ : ℚ → ℚ) (query : String)
    (raw : List (Payload × Option ℚ)) (alpha : ℚ) : List ℕ :=
  pySortDesc (fun i => (hybridBlended logQ query raw alpha).getD i 0)
    (List.range raw.length)

/-- The ranking tail of `search`: from the raw `(payload, sem_score)`
candidates returned by Qdrant, min-max normalize the semantic scores, score
`text_bm25` with BM25 at the defaults and normalize, blend with clamped
`alpha`, sort indices by blended score descending and keep the first
`max(1, limit)`; an empty candidate list short-circuits with no results. -/
def searchHybrid (logQ : ℚ → ℚ) (query : String) (raw : List (Payload × Option ℚ))
    (alpha : ℚ) (limit : ℕ) : List HybridResult :=
  if raw = [] then []
  else
    ((hybridIdx logQ query raw alpha).take (max 1 limit)).map (fun i =>
      ⟨(hybridSemScores raw).getD i 0, (hybridSemNorm raw).getD i 0,
        (hybridBm25 logQ query raw).getD i 0,
        (hybridBm25Norm logQ query raw).getD i 0,
        (hybridBlended logQ query raw alpha).getD i 0,
        (raw.getD i (⟨none, none, none⟩, none)).1⟩)

theorem hybridIdx_length (logQ : ℚ → ℚ) (query : String)
    (raw : List (Payload × Option ℚ)) (alpha : ℚ) :
    (hybridIdx logQ query raw alpha).length = raw.length := by
  unfold hybridIdx
  rw [pySortDesc_length, List.length_range]

theorem searchHybrid_length (logQ : ℚ → ℚ) (query : String)
    (raw : List (Payload × Option ℚ)) (alpha : ℚ) (limit : ℕ) :
    (searchHybrid logQ query raw alpha limit).length
      = if raw = [] then 0 else min (max 1 limit) raw.length := by
  unfold searchHybrid
  by_cases h : raw = []
  · rw [if_pos h, if_pos h]
    rfl
  · rw [if_neg h, if_neg h]
    rw [List.length_map, List.length_take, hybridIdx_length]

theorem map_getD_range {α : Type} (l : List α) (d : α) :
    (List.range l.length).map (fun i => l.getD i d) = l := by
  apply List.ext_getElem
  · rw [List.length_map, List.length_range]
  · intro i h1 h2
    rw [List.getElem_map, List.getElem_range, List.getD_eq_getElem _ _ h2]

/-- C4 (amended): for every non-negative `limit`, the local sparse search and
the multi-collection aggregation return at most `limit` results, and exactly
all surviving candidates when fewer than `limit` survive; the hybrid Qdrant
search truncates to `max(1, limit)` instead, so it respects `limit` only for
`limit ≥ 1` (at `limit = 0` it still returns one result when candidates
exist), and it also returns all candidates when fewer than `limit` exist. -/
theorem limit_respected_spec (logQ sqrtQ : ℚ → ℚ) (docs : List _IndexedDocument)
    (text : String) (backend : String → Except String (List QdrantHit))
    (collections : List String) (query : String)
    (raw : List (Payload × Option ℚ)) (alpha : ℚ) (limit : ℕ) :
    (localIndexSearch logQ sqrtQ docs text limit).length
        = min limit (searchScored logQ sqrtQ docs text).length
    ∧ ((searchScored logQ sqrtQ docs text).length < limit →
        (localIndexSearch logQ sqrtQ docs text limit).length
          = (searchScored logQ sqrtQ docs text).length)
    ∧ (search_all_collections backend collections limit).length
        = min limit (aggregatedCandidates backend collections).length
    ∧ ((aggregatedCandidates backend collections).length < limit →
        (search_all_collections backend collections limit).Perm
          (aggregatedCandidates backend collections))
    ∧ (searchHybrid logQ query raw alpha limit).length
        = (if raw = [] then 0 else min (max 1 limit) raw.length)
    ∧ (raw ≠ [] → 1 ≤ limit →
        (searchHybrid logQ query raw alpha limit).length ≤ limit)
    ∧ (raw.length < limit →
        ((searchHybrid logQ query raw alpha limit).map (fun r => r.payload)).Perm
          (raw.map Prod.fst)) := by
  have hlocal : (localIndexSearch logQ sqrtQ docs text limit).length
      = min limit (searchScored logQ sqrtQ docs text).length := by
    unfold localIndexSearch
    rw [List.length_map, List.length_take]
  refine ⟨hlocal, ?_, ?_, ?_, searchHybrid_length logQ query raw alpha limit, ?_, ?_⟩
  · intro h
    rw [hlocal, min_eq_right (le_of_lt h)]
  · unfold search_all_collections
    rw [List.length_take, pySortDesc_length]
  · intro h
    unfold search_all_collections
    rw [List.take_of_length_le (by rw [pySortDesc_length]; exact le_of_lt h)]
    exact pySortDesc_perm _ _
  · intro hne hlim
    rw [searchHybrid_length, if_neg hne, max_eq_right hlim]
    exact min_le_left _ _
  · intro hlt
    by_cases hne : raw = []
    · subst hne
      unfold searchHybrid
      rw [if_pos rfl]
      constructor
    · unfold searchHybrid
      rw [if_neg hne]
      rw [List.take_of_length_le (by
        rw [hybridIdx_length]
        exact le_trans (le_of_lt hlt) (le_max_right 1 limit))]
      rw [List.map_map]
      have hperm : (hybridIdx logQ query raw alpha).Perm (List.range raw.length) := by
        unfold hybridIdx
        exact pySortDesc_perm _ _
      have hperm2 := hperm.map
        ((fun r : HybridResult => r.payload) ∘ (fun i =>
          (⟨(hybridSemScores raw).getD i 0, (hybridSemNorm raw).getD i 0,
            (hybridBm25 logQ query raw).getD i 0,
            (hybridBm25Norm logQ query raw).getD i 0,
            (hybridBlended logQ query raw alpha).getD i 0,
            (raw.getD i (⟨none, none, none⟩, none)).1⟩ : HybridResult)))
      refine hperm2.trans ?_
      rw [show (List.range raw.length).map
          ((fun r : HybridResult => r.payload) ∘ (fun i =>
            (⟨(hybridSemScores raw).getD i 0, (hybridSemNorm raw).getD i 0,
              (hybridBm25 logQ query raw).getD i 0,
              (hybridBm25Norm logQ query raw).getD i 0,
              (hybridBlended logQ query raw alpha).getD i 0,
              (raw.getD i (⟨none, none, none⟩, none)).1⟩ : HybridResult)))
          = ((List.range raw.length).map (fun i =>
              raw.getD i (⟨none, none, none⟩, none))).map Prod.fst from by
        rw [List.map_map]
        rfl]
      rw [map_getD_range]

/-- C4 counterexample: the hybrid search truncates to `max(1, limit)`: with
`limit = 0` and one candidate it returns one result, so the result length is
not bounded by `limit`. -/
theorem limit_respected_counterexample :
    (searchHybrid (fun _ => 1) "" [(⟨none, none, none⟩, some 1)] (6/10) 0).length = 1
    ∧ ¬ ((searchHybrid (fun _ => 1) "" [(⟨none, none, none⟩, some 1)] (6/10) 0).length
          ≤ 0) := by
  have h := searchHybrid_length (fun _ => 1) "" [(⟨none, none, none⟩, some 1)] (6/10) 0
  rw [if_neg (by simp)] at h
  constructor
  · rw [h]
    decide
  · rw [h]
    decide

/-- Witness for C4: on the one-document local index all survivors are returned
when `limit = 5` exceeds the single surviving candidate. -/
theorem limit_respected_spec_witness :
    (searchScored (fun _ => 0) (fun x => x) [⟨"c1", "hello", ["a"]⟩] "a").length < 5
    ∧ (localIndexSearch (fun _ => 0) (fun x => x) [⟨"c1", "hello", ["a"]⟩] "a" 5).length
        = (searchScored (fun _ => 0) (fun x => x) [⟨"c1", "hello", ["a"]⟩] "a").length := by
  have hlen : (searchScored (fun _ => 0) (fun x => x)
      [⟨"c1", "hello", ["a"]⟩] "a").length = 1 := by
    rw [w_scored]
    rfl
  refine ⟨by rw [hlen]; decide, ?_⟩
  exact (limit_respected_spec (fun _ => 0) (fun x => x) [⟨"c1", "hello", ["a"]⟩] "a"
      demoBackend ["good"] "" [] 1 5).2.1 (by rw [hlen]; decide)
